import Mathlib

/-!
Search pipeline of `static/js/search_utils.js` and `debounce` of `static/js/main.js`.

A shallow embedding of the JavaScript search utilities
(`normalizeSearchText`, `matchesSearch`, `filterBySearch`, `getNestedValue`,
`createSearchHandler`, `createAdvancedSearchHandler`) and of `debounce`,
followed by the theorems that settle the claims C1 .. C10.

Modelling conventions.

* A JavaScript string is a `List Char`.
* A JavaScript value is a `JSVal`; `num n` stands for an integer-valued number
  that `String` renders in plain decimal digits.  A record is an association
  list read from the front; like an array it inherits the properties of the
  built-in prototype objects, which are values too.
* A function that may raise an exception returns `Except JSThrow _`.
* The timer (`setTimeout` / `clearTimeout`) is explicit state: a table of
  pending timers with handles and deadlines.
-/

set_option autoImplicit false

namespace SearchUtils

/-! JavaScript values -/

/-- A JavaScript string, as its sequence of characters. -/
abbrev JSString := List Char

/-- The objects of the platform that a property read on a record or an array
can reach: `Object.prototype`, `Array.prototype`, and the built-in functions,
named as their `name` property names them. -/
inductive Builtin where
  | objectPrototype
  | arrayPrototype
  | fn (name : JSString)
  deriving DecidableEq

/-- The JavaScript values the search pipeline can meet in its data. -/
inductive JSVal where
  | undefined
  | null
  | bool (b : Bool)
  | num (n : Int)
  | str (s : JSString)
  | obj (fields : List (JSString × JSVal))
  | arr (items : List JSVal)
  | builtin (b : Builtin)

namespace JSVal

mutual
/-- Boolean structural equality of values. -/
def beq : JSVal → JSVal → Bool
  | undefined, undefined => true
  | null, null => true
  | bool a, bool b => a == b
  | num a, num b => a == b
  | str a, str b => a == b
  | obj a, obj b => beqFields a b
  | arr a, arr b => beqItems a b
  | builtin a, builtin b => a == b
  | _, _ => false
termination_by structural v => v
/-- Boolean equality of field lists. -/
def beqFields : List (JSString × JSVal) → List (JSString × JSVal) → Bool
  | [], [] => true
  | p :: r, q :: s => beqField p q && beqFields r s
  | _, _ => false
termination_by structural l => l
/-- Boolean equality of one field. -/
def beqField : JSString × JSVal → JSString × JSVal → Bool
  | (k, v), (l, w) => k == l && beq v w
termination_by structural p => p
/-- Boolean equality of element lists. -/
def beqItems : List JSVal → List JSVal → Bool
  | [], [] => true
  | v :: r, w :: s => beq v w && beqItems r s
  | _, _ => false
termination_by structural l => l
end

/-- JavaScript truthiness (`!v` is its negation): `undefined`, `null`,
`false`, `0` and the empty string are falsy, everything else is truthy. -/
def truthy : JSVal → Bool
  | undefined => false
  | null => false
  | bool b => b
  | num n => n != 0
  | str s => !s.isEmpty
  | obj _ => true
  | arr _ => true
  | builtin _ => true

mutual
/-- The conversion `String(v)`. -/
def toJSString : JSVal → JSString
  | undefined => "undefined".toList
  | null => "null".toList
  | bool true => "true".toList
  | bool false => "false".toList
  | num n => (toString n).toList
  | str s => s
  | obj _ => "[object Object]".toList
  | arr items => joinItems items
  | builtin .objectPrototype => "[object Object]".toList
  | builtin .arrayPrototype => []
  | builtin (.fn name) => "function ".toList ++ name ++ "() { [native code] }".toList
termination_by structural v => v
/-- The conversion `Array.prototype.join` with the separator `,`, which is
what `String` does to an array: `null` and `undefined` elements are empty. -/
def joinItems : List JSVal → JSString
  | [] => []
  | v :: rest =>
    (match v with
      | undefined => []
      | null => []
      | w => toJSString w) ++
    (match rest with
      | [] => []
      | _ :: _ => ',' :: joinItems rest)
termination_by structural l => l
end

end JSVal

open JSVal

/-! Text primitives of the platform -/

/-- The characters matched by `\s` and removed by `String.prototype.trim`:
the ECMAScript `WhiteSpace` and `LineTerminator` code points. -/
def isWhiteSpace (c : Char) : Bool :=
  let n := c.toNat
  (9 ≤ n && n ≤ 13) || n == 32 || n == 160 || n == 0x1680 ||
  (0x2000 ≤ n && n ≤ 0x200A) || n == 0x2028 || n == 0x2029 ||
  n == 0x202F || n == 0x205F || n == 0x3000 || n == 0xFEFF

/-- Modelled from the spec: the case table behind `toLowerCase` belongs to the
platform and is not in the repository; the specification only says
"lowercase".  The model lower-cases the Basic Latin capitals `A`-`Z` and the
Cyrillic capitals U+0400-U+042F one to one and leaves every other character
alone. -/
def toLowerChar (c : Char) : Char :=
  let n := c.toNat
  if 0x41 ≤ n ∧ n ≤ 0x5A then Char.ofNat (n + 0x20)
  else if 0x410 ≤ n ∧ n ≤ 0x42F then Char.ofNat (n + 0x20)
  else if 0x400 ≤ n ∧ n ≤ 0x40F then Char.ofNat (n + 0x50)
  else c

/-- The method `String.prototype.toLowerCase`. -/
def toLowerCase (s : JSString) : JSString := s.map toLowerChar

/-- The method `String.prototype.trim`: drop the white space at both ends. -/
def trim (s : JSString) : JSString :=
  (s.dropWhile isWhiteSpace).rdropWhile isWhiteSpace

/-- The loop behind `replace(/\s+/g, ' ')`, reading left to right; `inRun`
tells that the previous character belonged to the run of white space being
replaced, whose single space has been written already. -/
def collapseAux : Bool → JSString → JSString
  | _, [] => []
  | inRun, c :: cs =>
    if isWhiteSpace c then
      if inRun then collapseAux true cs else ' ' :: collapseAux true cs
    else c :: collapseAux false cs

/-- The call `s.replace(/\s+/g, ' ')`: every maximal run of white space
becomes one space. -/
def collapseSpaces (s : JSString) : JSString := collapseAux false s

/-- The method `String.prototype.includes`: `q` occurs in `t` at some
position. -/
def includes (t q : JSString) : Bool :=
  t.tails.any (fun rest => q.isPrefixOf rest)

/-! `search_utils.js` -/

/-- The function `normalizeSearchText(text)`. -/
def normalizeSearchText (text : JSVal) : JSString :=
  match text with
  | str s =>
    if s.isEmpty then []
    else collapseSpaces (toLowerCase (trim s))
  | _ => []

/-- The function `matchesSearch(text, searchTerm)`. -/
def matchesSearch (text searchTerm : JSVal) : Bool :=
  if !truthy searchTerm then true
  else if !truthy text then false
  else
    let normalizedText := normalizeSearchText (str (toJSString text))
    let normalizedSearch := normalizeSearchText (str (toJSString searchTerm))
    includes normalizedText normalizedSearch

/-- The call `path.split('.')`: the pieces between the dots, at least one. -/
def splitDot : JSString → List JSString
  | [] => [[]]
  | c :: cs =>
    if c = '.' then [] :: splitDot cs
    else
      match splitDot cs with
      | [] => [[c]]
      | k :: ks => (c :: k) :: ks

/-- The own property `key` of an array: `length`, or an index below the
length written in canonical decimal. -/
def arrayProp (items : List JSVal) (key : JSString) : Option JSVal :=
  if key = "length".toList then some (num items.length)
  else
    match (List.range items.length).find? (fun i => (toString i).toList == key) with
    | some i => items.get? i
    | none => none

/-- Modelled from the spec: the property table of `Object.prototype` belongs to
the platform (ECMAScript), not to the repository.  The names of its function
properties, `constructor` and the accessor `__proto__` apart. -/
def objectMethodNames : List JSString :=
  ["__defineGetter__", "__defineSetter__", "hasOwnProperty", "__lookupGetter__",
    "__lookupSetter__", "isPrototypeOf", "propertyIsEnumerable", "toString",
    "valueOf", "toLocaleString"].map String.toList

/-- Modelled from the spec: the property table of `Array.prototype` belongs to
the platform (ECMAScript), not to the repository.  The names of its function
properties, `constructor` apart. -/
def arrayMethodNames : List JSString :=
  ["at", "concat", "copyWithin", "fill", "find", "findIndex", "findLast",
    "findLastIndex", "lastIndexOf", "pop", "push", "reverse", "shift", "unshift",
    "slice", "sort", "splice", "includes", "indexOf", "join", "keys", "entries",
    "values", "forEach", "filter", "flat", "flatMap", "map", "every", "some",
    "reduce", "reduceRight", "toLocaleString", "toString", "toReversed", "toSorted",
    "toSpliced", "with"].map String.toList

/-- The function property `key` of `Object.prototype`. -/
def objectMember (key : JSString) : Option JSVal :=
  if key = "constructor".toList then some (builtin (.fn "Object".toList))
  else if key ∈ objectMethodNames then some (builtin (.fn key))
  else none

/-- The function property `key` of `Array.prototype`. -/
def arrayMember (key : JSString) : Option JSVal :=
  if key = "constructor".toList then some (builtin (.fn "Array".toList))
  else if key ∈ arrayMethodNames then some (builtin (.fn key))
  else none

/-- What the platform answers to `key in value` and `value[key]` when `key`
is not an own property of a record or an array: the read goes up the prototype
chain (a record to `Object.prototype`, an array to `Array.prototype` and on to
`Object.prototype`), `__proto__` yields the prototype of the value itself, and
the two prototype objects answer for themselves.  A function is not of type
`'object'` and has no property here. -/
def platformProperty (value : JSVal) (key : JSString) : Option JSVal :=
  match value with
  | obj _ =>
    if key = "__proto__".toList then some (builtin .objectPrototype)
    else objectMember key
  | arr _ =>
    if key = "__proto__".toList then some (builtin .arrayPrototype)
    else
      match arrayMember key with
      | some v => some v
      | none => objectMember key
  | builtin .objectPrototype =>
    if key = "__proto__".toList then some null
    else objectMember key
  | builtin .arrayPrototype =>
    if key = "__proto__".toList then some (builtin .objectPrototype)
    else if key = "length".toList then some (num 0)
    else
      match arrayMember key with
      | some v => some v
      | none => objectMember key
  | _ => none

/-- The guarded read `value && typeof value === 'object' && key in value`
followed by `value[key]`: `none` when the guard fails.  An own property, a
field of a record or an index or `length` of an array, comes before an
inherited one. -/
def getProp (value : JSVal) (key : JSString) : Option JSVal :=
  match value with
  | obj fields =>
    match fields.lookup key with
    | some v => some v
    | none => platformProperty value key
  | arr items =>
    match arrayProp items key with
    | some v => some v
    | none => platformProperty value key
  | builtin _ => platformProperty value key
  | _ => none

/-- The loop `for (const key of keys)` of `getNestedValue` together with the
final `return value || ''`. -/
def getNestedLoop : JSVal → List JSString → JSVal
  | value, [] => if truthy value then value else str []
  | value, key :: keys =>
    match getProp value key with
    | some next => getNestedLoop next keys
    | none => str []

/-- The function `getNestedValue(obj, path)` for a string `path`. -/
def getNestedValue (o : JSVal) (path : JSString) : JSVal :=
  if !truthy o || path.isEmpty then str []
  else getNestedLoop o (splitDot path)

/-- What a JavaScript call can raise: a `TypeError` of the platform, or a
value thrown by caller-supplied code. -/
inductive JSThrow where
  | typeError
  | thrown (v : JSVal)

/-- The third argument of `filterBySearch`, by the branch the code takes:
a function, an array of field-path strings, or anything else (in particular
the argument left out). -/
inductive SearchFields where
  | func (f : JSVal → Except JSThrow JSVal)
  | fields (paths : List JSString)
  | omitted

/-- The values of the own properties of a record whose keys are not in
`seen`; an entry behind an earlier entry of the same key is not a property. -/
def ownValuesAux (seen : List JSString) : List (JSString × JSVal) → List JSVal
  | [] => []
  | (k, v) :: rest =>
    if k ∈ seen then ownValuesAux seen rest
    else v :: ownValuesAux (k :: seen) rest

/-- The call `Object.values(item)`. -/
def objectValues (item : JSVal) : Except JSThrow (List JSVal) :=
  match item with
  | undefined => .error .typeError
  | null => .error .typeError
  | obj fields => .ok (ownValuesAux [] fields)
  | arr items => .ok items
  | str s => .ok (s.map (fun c => str [c]))
  | _ => .ok []

/-- The method `Array.prototype.filter` with a callback that may throw: the
callback runs on the elements in order and the first exception ends the call. -/
def arrayFilter (keep : JSVal → Except JSThrow Bool) :
    List JSVal → Except JSThrow (List JSVal)
  | [] => .ok []
  | item :: rest =>
    match keep item with
    | .error e => .error e
    | .ok k =>
      match arrayFilter keep rest with
      | .error e => .error e
      | .ok kept => .ok (if k then item :: kept else kept)

/-- The callback `item => ...` that `filterBySearch` hands to `items.filter`. -/
def itemMatches (searchFields : SearchFields) (normalizedSearch : JSVal)
    (item : JSVal) : Except JSThrow Bool :=
  match searchFields with
  | .func f =>
    match f item with
    | .error e => .error e
    | .ok searchableText => .ok (matchesSearch searchableText normalizedSearch)
  | .fields paths =>
    .ok (paths.any (fun field =>
      matchesSearch (getNestedValue item field) normalizedSearch))
  | .omitted =>
    match objectValues item with
    | .error e => .error e
    | .ok values =>
      .ok (values.any (fun value =>
        match value with
        | str _ => matchesSearch (str (toJSString value)) normalizedSearch
        | num _ => matchesSearch (str (toJSString value)) normalizedSearch
        | _ => false))

/-- The function `filterBySearch(items, searchTerm, searchFields)`.  A truthy
`searchTerm` that is not a string has no `trim` method, so the call raises a
`TypeError`. -/
def filterBySearch (items : List JSVal) (searchTerm : JSVal)
    (searchFields : SearchFields) : Except JSThrow (List JSVal) :=
  if !truthy searchTerm then .ok items
  else
    match searchTerm with
    | str s =>
      if !truthy (str (trim s)) then .ok items
      else
        let normalizedSearch := str (normalizeSearchText searchTerm)
        arrayFilter (itemMatches searchFields normalizedSearch) items
    | _ => .error .typeError

/-! Timers as explicit state -/

/-- The body of a function handed to `setTimeout`, by the closure it is:
`() => { callback(event); }` of `createSearchHandler`, or `later` of
`debounce`, which clears the handle in `timeout` and then calls `func`. -/
inductive TimerBody (ε : Type) where
  | callbackOf (event : ε)
  | later (args : ε)

/-- A pending timer: the handle `setTimeout` returned, the time at which it
is due, and the function to run. -/
structure Timer (ε : Type) where
  handle : Nat
  deadline : Nat
  body : TimerBody ε

/-- The state of the page around one handler: the clock, the timer table, the
closure variable `timeout` of the handler, and the log of the calls made to
the callback (the time of the call and its argument). -/
structure World (ε : Type) where
  now : Nat
  nextHandle : Nat
  pending : List (Timer ε)
  timeout : Option Nat
  calls : List (Nat × ε)

/-- The page before any event: time zero, no timer, `timeout` undefined. -/
def World.initial (ε : Type) : World ε :=
  { now := 0, nextHandle := 1, pending := [], timeout := none, calls := [] }

/-- The call `setTimeout(body, delay)`: a fresh handle, due `delay` from now. -/
def setTimeout {ε : Type} (w : World ε) (body : TimerBody ε) (delay : Nat) :
    Nat × World ε :=
  (w.nextHandle,
    { w with
      nextHandle := w.nextHandle + 1
      pending := w.pending ++
        [{ handle := w.nextHandle, deadline := w.now + delay, body := body }] })

/-- The call `clearTimeout(handle)`; with `undefined` (here `none`) or a handle
that is not pending it does nothing. -/
def clearTimeout {ε : Type} (w : World ε) (handle : Option Nat) : World ε :=
  match handle with
  | none => w
  | some h => { w with pending := w.pending.filter (fun t => t.handle != h) }

/-- The call `callback(event)`, recorded in the log. -/
def callCallback {ε : Type} (w : World ε) (event : ε) : World ε :=
  { w with calls := w.calls ++ [(w.now, event)] }

/-- Running the body of a timer that has come due. -/
def runBody {ε : Type} (w : World ε) : TimerBody ε → World ε
  | .callbackOf event => callCallback w event
  | .later args => callCallback (clearTimeout w w.timeout) args

/-- The pending timer to run first: the earliest deadline, and among equal
deadlines the one set first. -/
def earliest {ε : Type} : List (Timer ε) → Option (Timer ε)
  | [] => none
  | t :: rest =>
    match earliest rest with
    | none => some t
    | some u => if t.deadline ≤ u.deadline then some t else some u

/-- The event loop running due timers: up to `fuel` timers whose deadline is
at most `t`, each at its deadline. -/
def runDue {ε : Type} : Nat → Nat → World ε → World ε
  | 0, _, w => w
  | fuel + 1, t, w =>
    match earliest (w.pending.filter (fun tm => tm.deadline ≤ t)) with
    | none => w
    | some tm =>
      runDue fuel t
        (runBody
          { w with
            now := max w.now tm.deadline
            pending := w.pending.filter (fun u => u.handle != tm.handle) }
          tm.body)

/-- Letting time pass until `t`: every timer due by then runs (no body sets a
new timer, so one round per pending timer is enough), then the clock reads `t`. -/
def advanceTo {ε : Type} (t : Nat) (w : World ε) : World ε :=
  let w1 := runDue w.pending.length t w
  { w1 with now := max w1.now t }

/-- The handler returned by `createSearchHandler(callback, delay)`, run on
`event`: `clearTimeout(timeout)`, then `timeout = setTimeout(..., delay)`. -/
def createSearchHandler {ε : Type} (delay : Nat) (event : ε) (w : World ε) :
    World ε :=
  let w1 := clearTimeout w w.timeout
  let r := setTimeout w1 (.callbackOf event) delay
  { r.2 with timeout := some r.1 }

/-- The function `executedFunction` returned by `debounce(func, wait)` of
`main.js`, run on `args`. -/
def debounce {ε : Type} (wait : Nat) (args : ε) (w : World ε) : World ε :=
  let w1 := clearTimeout w w.timeout
  let r := setTimeout w1 (.later args) wait
  { r.2 with timeout := some r.1 }

/-- A keyboard or input event, as far as the handlers read and write it:
`event.key`, `event.target.value` and whether `preventDefault` was called. -/
structure Event where
  key : JSString
  value : JSString
  defaultPrevented : Bool
  deriving DecidableEq

/-- The three handlers returned by `createAdvancedSearchHandler`. -/
structure AdvancedHandlers where
  input : Event → World Event → World Event
  keypress : Event → World Event → World Event
  keydown : Event → World Event → World Event

/-- The function `createAdvancedSearchHandler(callback, delay)`.  Its
`keypressHandler` calls `clearTimeout()` without a handle: the variable
`timeout` belongs to the closure of `createSearchHandler` and is not in its
scope. -/
def createAdvancedSearchHandler (delay : Nat) : AdvancedHandlers :=
  { input := createSearchHandler delay
    keypress := fun event w =>
      if event.key = "Enter".toList then
        let event1 := { event with defaultPrevented := true }
        let w1 := clearTimeout w none
        callCallback w1 event1
      else w
    keydown := fun event w =>
      if event.key = "Escape".toList then
        let event1 := { event with value := [] }
        callCallback w event1
      else w }

/-- An event arriving at time `t`: the timers due by `t` run first, then the
handler. -/
def dispatchAt {ε : Type} (handler : ε → World ε → World ε) (t : Nat) (event : ε)
    (w : World ε) : World ε :=
  handler event (advanceTo t w)

/-- A sequence of invocations of one handler, each with its arrival time. -/
def dispatchAll {ε : Type} (handler : ε → World ε → World ε) :
    List (Nat × ε) → World ε → World ε
  | [], w => w
  | (t, event) :: rest, w => dispatchAll handler rest (dispatchAt handler t event w)

/-! Predicates used in the statements -/

/-- No leading white space. -/
def CleanStart (s : JSString) : Prop := ∀ c, s.head? = some c → isWhiteSpace c = false

/-- No trailing white space. -/
def CleanEnd (s : JSString) : Prop := ∀ c, s.getLast? = some c → isWhiteSpace c = false

/-- No run of two or more white-space characters. -/
def NoRun (s : JSString) : Prop :=
  s.Chain' (fun a b => ¬ (isWhiteSpace a = true ∧ isWhiteSpace b = true))

/-- No upper-case letter: lower-casing changes no character. -/
def NoUpper (s : JSString) : Prop := ∀ c ∈ s, toLowerChar c = c

/-- A text argument that may be absent, as a JavaScript value: an absent
argument is `undefined`. -/
def ofText : Option JSString → JSVal
  | none => undefined
  | some s => str s

/-- The text argument is empty or absent. -/
def emptyOrAbsent : Option JSString → Bool
  | none => true
  | some s => s.isEmpty

/-- The reference definition of the match predicate, in the words of the
specification: an empty or absent query matches everything; otherwise an empty
or absent text matches nothing; otherwise the normalised query occurs as a
contiguous substring of the normalised text. -/
def MatchesSpec (text query : Option JSString) : Prop :=
  if emptyOrAbsent query then True
  else if emptyOrAbsent text then False
  else ∃ before after : JSString,
    normalizeSearchText (ofText text) =
      before ++ normalizeSearchText (ofText query) ++ after

/-- The value has the own property `key` with value `v`: a record maps `key`
to `v` (the first entry of that key), an array has `v` at the index that `key`
writes in decimal, or `key` is `length` and `v` the length of the array. -/
inductive OwnProperty : JSVal → JSString → JSVal → Prop where
  | field (before after : List (JSString × JSVal)) (key : JSString) (v : JSVal) :
      (∀ p ∈ before, p.1 ≠ key) →
      OwnProperty (obj (before ++ (key, v) :: after)) key v
  | index (items : List JSVal) (i : Nat) (v : JSVal) :
      items.get? i = some v → OwnProperty (arr items) (toString i).toList v
  | length (items : List JSVal) :
      OwnProperty (arr items) "length".toList (num items.length)

/-- The key is present in the value, as `key in value` tests it, and reads
`v`: an own property, or else a property the platform supplies. -/
def HasProperty (value : JSVal) (key : JSString) (v : JSVal) : Prop :=
  OwnProperty value key v ∨
    ((∀ w, ¬ OwnProperty value key w) ∧ platformProperty value key = some v)

/-- The record is followed along the keys one at a time, each key present in
the value reached so far, and `result` is the value reached at the end. -/
inductive Follows : JSVal → List JSString → JSVal → Prop where
  | here (v : JSVal) : Follows v [] v
  | step (v : JSVal) (key : JSString) (keys : List JSString) (next result : JSVal) :
      HasProperty v key next → Follows next keys result →
      Follows v (key :: keys) result

/-- The keys of a dot-separated path: at least one, none with a dot in it. -/
def DotFree (keys : List JSString) : Prop :=
  keys ≠ [] ∧ ∀ k ∈ keys, '.' ∉ k

/-- The path that writes the keys with dots in between. -/
def joinKeys (keys : List JSString) : JSString := ['.'].intercalate keys

/-- The query is empty or consists of white space only. -/
def Blank (s : JSString) : Prop := ∀ c ∈ s, isWhiteSpace c = true

instance (s : JSString) : Decidable (Blank s) := by
  unfold Blank
  infer_instance

/-- Some direct field of the record holds a text or number value `v` with
`matchesSearch(String(v), query)`. -/
def HasScalarMatch (fields : List (JSString × JSVal)) (query : JSString) : Prop :=
  ∃ (k : JSString) (v : JSVal), fields.lookup k = some v ∧
    ((∃ s, v = str s) ∨ (∃ n, v = num n)) ∧
    matchesSearch (str (toJSString v)) (str query) = true

/-- The test of `filterBySearch` without a selector, on one record. -/
def scalarMatch (fields : List (JSString × JSVal)) (query : JSString) : Bool :=
  (ownValuesAux [] fields).any (fun value =>
    match value with
    | str _ => matchesSearch (str (toJSString value)) (str query)
    | num _ => matchesSearch (str (toJSString value)) (str query)
    | _ => false)

/-- The projected text of a record matches the query; a record on which the
projection raises an exception has no projected text. -/
def projectionMatches (f : JSVal → Except JSThrow JSVal) (query : JSString)
    (item : JSVal) : Bool :=
  match f item with
  | .ok text => matchesSearch text (str query)
  | .error _ => false

/-- The projection `item => item.name.trim()` for the examples: it raises a
`TypeError` on a record whose `name` is missing or is not a string. -/
def trimmedName (item : JSVal) : Except JSThrow JSVal :=
  match getProp item "name".toList with
  | some (str s) => .ok (str (trim s))
  | _ => .error .typeError

/-- The projection `item => item.name` for the examples: it returns
`undefined` on a record without `name`. -/
def nameOf (item : JSVal) : Except JSThrow JSVal :=
  match getProp item "name".toList with
  | some v => .ok v
  | none => .ok undefined

/-- The common shape of the handlers of `createSearchHandler` and `debounce`:
clear the timer in `timeout`, set a new one running `body`, keep its handle. -/
def rearm {ε : Type} (body : ε → TimerBody ε) (delay : Nat) (event : ε)
    (w : World ε) : World ε :=
  let w1 := clearTimeout w w.timeout
  let r := setTimeout w1 (body event) delay
  { r.2 with timeout := some r.1 }

/-- Each invocation arrives no earlier than the previous one and less than
`delay` after it. -/
def Rapid {ε : Type} (delay : Nat) (invocations : List (Nat × ε)) : Prop :=
  invocations.Chain' (fun p q => p.1 ≤ q.1 ∧ q.1 < p.1 + delay)

/-- The state between two invocations of a burst: the clock reads `t`, the
callback has not been called, and exactly one timer is pending, the one whose
handle is in `timeout`, due at `t + delay`. -/
def Armed {ε : Type} (w : World ε) (t delay : Nat) (body : TimerBody ε) : Prop :=
  w.now = t ∧ w.calls = [] ∧
    ∃ h, w.timeout = some h ∧ w.pending = [{ handle := h, deadline := t + delay, body := body }]

/-- The argument a timer body passes to the callback. -/
def TimerBody.argument {ε : Type} : TimerBody ε → ε
  | .callbackOf event => event
  | .later args => args

/-! Decidable equality -/

namespace JSVal

mutual
theorem beq_eq : ∀ (a b : JSVal), beq a b = true → a = b
  | undefined, b => by cases b <;> simp [beq]
  | null, b => by cases b <;> simp [beq]
  | bool a, b => by cases b <;> simp [beq]
  | num a, b => by cases b <;> simp [beq]
  | str a, b => by cases b <;> simp [beq]
  | obj a, b => by
      cases b <;> simp [beq]
      exact beqFields_eq a _
  | arr a, b => by
      cases b <;> simp [beq]
      exact beqItems_eq a _
  | builtin a, b => by cases b <;> simp [beq]
termination_by structural a => a
theorem beqFields_eq :
    ∀ (a b : List (JSString × JSVal)), beqFields a b = true → a = b
  | [], b => by cases b <;> simp [beqFields]
  | p :: r, b => by
      cases b with
      | nil => simp [beqFields]
      | cons q s =>
        simp only [beqFields, Bool.and_eq_true]
        intro h
        rw [beqField_eq p q h.1, beqFields_eq r s h.2]
termination_by structural a => a
theorem beqField_eq : ∀ (a b : JSString × JSVal), beqField a b = true → a = b
  | (k, v), (l, w) => by
      simp only [beqField, Bool.and_eq_true, beq_iff_eq]
      intro h
      rw [h.1, beq_eq v w h.2]
termination_by structural a => a
theorem beqItems_eq : ∀ (a b : List JSVal), beqItems a b = true → a = b
  | [], b => by cases b <;> simp [beqItems]
  | v :: r, b => by
      cases b with
      | nil => simp [beqItems]
      | cons w s =>
        simp only [beqItems, Bool.and_eq_true]
        intro h
        rw [beq_eq v w h.1, beqItems_eq r s h.2]
termination_by structural a => a
end

mutual
theorem beq_self : ∀ (a : JSVal), beq a a = true
  | undefined => by simp [beq]
  | null => by simp [beq]
  | bool a => by simp [beq]
  | num a => by simp [beq]
  | str a => by simp [beq]
  | obj a => by simp [beq, beqFields_self a]
  | arr a => by simp [beq, beqItems_self a]
  | builtin a => by simp [beq]
termination_by structural a => a
theorem beqFields_self : ∀ (a : List (JSString × JSVal)), beqFields a a = true
  | [] => by simp [beqFields]
  | p :: r => by simp [beqFields, beqField_self p, beqFields_self r]
termination_by structural a => a
theorem beqField_self : ∀ (a : JSString × JSVal), beqField a a = true
  | (k, v) => by simp [beqField, beq_self v]
termination_by structural a => a
theorem beqItems_self : ∀ (a : List JSVal), beqItems a a = true
  | [] => by simp [beqItems]
  | v :: r => by simp [beqItems, beq_self v, beqItems_self r]
termination_by structural a => a
end

instance : DecidableEq JSVal := fun a b =>
  if h : beq a b = true then isTrue (beq_eq a b h)
  else isFalse (fun e => h (e ▸ beq_self a))

end JSVal

instance : DecidableEq JSThrow := fun a b =>
  match a, b with
  | .typeError, .typeError => isTrue rfl
  | .typeError, .thrown _ => isFalse (fun h => JSThrow.noConfusion h)
  | .thrown _, .typeError => isFalse (fun h => JSThrow.noConfusion h)
  | .thrown v, .thrown w =>
    if h : v = w then isTrue (h ▸ rfl)
    else isFalse (fun e => h (JSThrow.thrown.inj e))

instance : DecidableEq (Except JSThrow (List JSVal)) := fun a b =>
  match a, b with
  | .ok x, .ok y =>
    if h : x = y then isTrue (h ▸ rfl) else isFalse (fun e => h (Except.ok.inj e))
  | .error x, .error y =>
    if h : x = y then isTrue (h ▸ rfl) else isFalse (fun e => h (Except.error.inj e))
  | .ok _, .error _ => isFalse (fun h => Except.noConfusion h)
  | .error _, .ok _ => isFalse (fun h => Except.noConfusion h)

/-! Characters -/

theorem toNat_ofNat_small (m : Nat) (h : m < 0xD800) : (Char.ofNat m).toNat = m := by
  have hv : m.isValidChar := Or.inl h
  simp only [Char.ofNat, hv, dite_true, Char.toNat, Char.ofNatAux]
  show (UInt32.ofNat' m _).toNat = m
  simp [UInt32.ofNat', UInt32.toNat]

theorem toLowerChar_cases (c : Char) :
    (toLowerChar c = c ∧ ¬ (0x41 ≤ c.toNat ∧ c.toNat ≤ 0x5A) ∧
      ¬ (0x400 ≤ c.toNat ∧ c.toNat ≤ 0x42F)) ∨
    ((toLowerChar c).toNat = c.toNat + 0x20 ∧ 0x41 ≤ c.toNat ∧ c.toNat ≤ 0x5A) ∨
    ((toLowerChar c).toNat = c.toNat + 0x20 ∧ 0x410 ≤ c.toNat ∧ c.toNat ≤ 0x42F) ∨
    ((toLowerChar c).toNat = c.toNat + 0x50 ∧ 0x400 ≤ c.toNat ∧ c.toNat ≤ 0x40F) := by
  unfold toLowerChar
  simp only []
  split
  · rename_i h
    right; left
    exact ⟨toNat_ofNat_small _ (by omega), h⟩
  · split
    · rename_i h
      right; right; left
      exact ⟨toNat_ofNat_small _ (by omega), h⟩
    · split
      · rename_i h
        right; right; right
        exact ⟨toNat_ofNat_small _ (by omega), h⟩
      · left
        refine ⟨rfl, by assumption, ?_⟩
        omega

theorem toLowerChar_idem (c : Char) : toLowerChar (toLowerChar c) = toLowerChar c := by
  rcases toLowerChar_cases c with h | h | h | h
  · rw [h.1, h.1]
  all_goals
    rcases toLowerChar_cases (toLowerChar c) with g | g | g | g
    · exact g.1
    all_goals omega

theorem isWhiteSpace_iff (c : Char) :
    isWhiteSpace c = true ↔
      ((9 ≤ c.toNat ∧ c.toNat ≤ 13) ∨ c.toNat = 32 ∨ c.toNat = 160 ∨ c.toNat = 0x1680 ∨
      (0x2000 ≤ c.toNat ∧ c.toNat ≤ 0x200A) ∨ c.toNat = 0x2028 ∨ c.toNat = 0x2029 ∨
      c.toNat = 0x202F ∨ c.toNat = 0x205F ∨ c.toNat = 0x3000 ∨ c.toNat = 0xFEFF) := by
  simp [isWhiteSpace, or_assoc]

theorem toLowerChar_of_ws (c : Char) (h : isWhiteSpace c = true) : toLowerChar c = c := by
  rw [isWhiteSpace_iff] at h
  rcases toLowerChar_cases c with g | g | g | g
  · exact g.1
  all_goals omega

theorem isWhiteSpace_toLowerChar (c : Char) :
    isWhiteSpace (toLowerChar c) = isWhiteSpace c := by
  rcases toLowerChar_cases c with g | g | g | g
  · rw [g.1]
  all_goals
    have h1 : ¬ (isWhiteSpace c = true) := by rw [isWhiteSpace_iff]; omega
    have h2 : ¬ (isWhiteSpace (toLowerChar c) = true) := by rw [isWhiteSpace_iff]; omega
    simp only [Bool.not_eq_true] at h1 h2
    rw [h1, h2]

/-! Trimming, lower-casing and collapsing -/

theorem cleanStart_dropWhile (s : JSString) : CleanStart (s.dropWhile isWhiteSpace) := by
  intro c hc
  have h := List.head?_dropWhile_not isWhiteSpace s
  rw [hc] at h
  simpa using h

theorem cleanEnd_rdropWhile (s : JSString) : CleanEnd (s.rdropWhile isWhiteSpace) := by
  intro c hc
  have hne : s.rdropWhile isWhiteSpace ≠ [] := by
    intro h
    rw [h] at hc
    simp at hc
  have h := List.rdropWhile_last_not isWhiteSpace s hne
  rw [List.getLast?_eq_getLast _ hne] at hc
  simp only [Option.some.injEq] at hc
  rw [hc] at h
  simpa using h

theorem cleanStart_of_prefix {s t : JSString} (h : s <+: t) (ht : CleanStart t) :
    CleanStart s := by
  intro c hc
  obtain ⟨r, rfl⟩ := h
  cases s with
  | nil => simp at hc
  | cons a s => exact ht c (by simpa using hc)

theorem cleanStart_trim (s : JSString) : CleanStart (trim s) :=
  cleanStart_of_prefix (List.rdropWhile_prefix _ _) (cleanStart_dropWhile s)

theorem cleanEnd_trim (s : JSString) : CleanEnd (trim s) := cleanEnd_rdropWhile _

theorem trim_eq_self {s : JSString} (h1 : CleanStart s) (h2 : CleanEnd s) : trim s = s := by
  have e1 : s.dropWhile isWhiteSpace = s := by
    rw [List.dropWhile_eq_self_iff]
    intro hl
    cases s with
    | nil => simp at hl
    | cons a s => simpa using h1 a rfl
  unfold trim
  rw [e1, List.rdropWhile_eq_self_iff]
  intro hl
  have := h2 _ (List.getLast?_eq_getLast _ hl)
  simpa using this

theorem cleanStart_toLowerCase {s : JSString} (h : CleanStart s) :
    CleanStart (toLowerCase s) := by
  intro c hc
  cases s with
  | nil => simp [toLowerCase] at hc
  | cons a s =>
    simp only [toLowerCase, List.map_cons, List.head?_cons, Option.some.injEq] at hc
    rw [← hc, isWhiteSpace_toLowerChar]
    exact h a rfl

theorem cleanEnd_toLowerCase {s : JSString} (h : CleanEnd s) :
    CleanEnd (toLowerCase s) := by
  intro c hc
  simp only [toLowerCase, List.getLast?_map, Option.map_eq_some'] at hc
  obtain ⟨a, ha, rfl⟩ := hc
  rw [isWhiteSpace_toLowerChar]
  exact h a ha

theorem mem_collapseAux (b : Bool) (l : JSString) (c : Char) (h : c ∈ collapseAux b l) :
    c = ' ' ∨ (c ∈ l ∧ isWhiteSpace c = false) := by
  induction l generalizing b with
  | nil => simp [collapseAux] at h
  | cons a l ih =>
    unfold collapseAux at h
    rcases Bool.eq_false_or_eq_true (isWhiteSpace a) with ha | ha
    · simp only [ha, if_true] at h
      cases b with
      | true =>
        rcases ih _ h with h | h
        · exact Or.inl h
        · exact Or.inr ⟨List.mem_cons_of_mem _ h.1, h.2⟩
      | false =>
        simp only [Bool.false_eq_true, if_false, List.mem_cons] at h
        rcases h with h | h
        · exact Or.inl h
        · rcases ih _ h with h | h
          · exact Or.inl h
          · exact Or.inr ⟨List.mem_cons_of_mem _ h.1, h.2⟩
    · simp only [ha, Bool.false_eq_true, if_false, List.mem_cons] at h
      rcases h with h | h
      · exact Or.inr ⟨by simp [h], by rw [h]; exact ha⟩
      · rcases ih _ h with h | h
        · exact Or.inl h
        · exact Or.inr ⟨List.mem_cons_of_mem _ h.1, h.2⟩

theorem collapseAux_eq_nil (b : Bool) (l : JSString) (h : collapseAux b l = []) :
    ∀ c ∈ l, isWhiteSpace c = true := by
  induction l generalizing b with
  | nil => simp
  | cons a l ih =>
    unfold collapseAux at h
    rcases Bool.eq_false_or_eq_true (isWhiteSpace a) with ha | ha
    · simp only [ha, if_true] at h
      cases b with
      | true =>
        intro c hc
        rcases List.mem_cons.1 hc with rfl | hc
        · exact ha
        · exact ih _ h c hc
      | false => simp at h
    · simp [ha] at h

theorem collapseAux_head (b : Bool) (l : JSString) :
    b = true → CleanStart (collapseAux b l) := by
  induction l generalizing b with
  | nil => intro _ c hc; simp [collapseAux] at hc
  | cons a l ih =>
    intro hb c hc
    subst hb
    unfold collapseAux at hc
    rcases Bool.eq_false_or_eq_true (isWhiteSpace a) with ha | ha
    · simp only [ha, if_true] at hc
      exact ih true rfl c hc
    · simp only [ha, Bool.false_eq_true, if_false, List.head?_cons, Option.some.injEq] at hc
      rw [← hc]
      exact ha

theorem collapseAux_cleanStart (b : Bool) (l : JSString) (h : CleanStart l) :
    CleanStart (collapseAux b l) := by
  cases l with
  | nil => intro c hc; simp [collapseAux] at hc
  | cons a l =>
    have ha : isWhiteSpace a = false := h a rfl
    intro c hc
    unfold collapseAux at hc
    simp only [ha, Bool.false_eq_true, if_false, List.head?_cons, Option.some.injEq] at hc
    rw [← hc]
    exact ha

theorem collapseAux_noRun (b : Bool) (l : JSString) : NoRun (collapseAux b l) := by
  induction l generalizing b with
  | nil => simp [collapseAux, NoRun]
  | cons a l ih =>
    unfold collapseAux
    rcases Bool.eq_false_or_eq_true (isWhiteSpace a) with ha | ha
    · simp only [ha, if_true]
      cases b with
      | true => exact ih true
      | false =>
        simp only [Bool.false_eq_true, if_false]
        unfold NoRun
        rw [List.chain'_cons']
        refine ⟨?_, ih true⟩
        intro y hy
        have := collapseAux_head true l rfl y (by simpa using hy)
        simp [this]
    · simp only [ha, Bool.false_eq_true, if_false]
      unfold NoRun
      rw [List.chain'_cons']
      refine ⟨?_, ih false⟩
      intro y _
      simp [ha]

theorem collapseAux_cleanEnd (b : Bool) (l : JSString) (h : CleanEnd l) :
    CleanEnd (collapseAux b l) := by
  induction l generalizing b with
  | nil => intro c hc; simp [collapseAux] at hc
  | cons a l ih =>
    cases l with
    | nil =>
      have ha : isWhiteSpace a = false := h a rfl
      intro c hc
      simp only [collapseAux, ha, Bool.false_eq_true, if_false, List.getLast?_singleton,
        Option.some.injEq] at hc
      rw [← hc]
      exact ha
    | cons d l =>
      have h' : CleanEnd (d :: l) := by
        intro c hc
        exact h c (by rw [List.getLast?_cons_cons]; exact hc)
      have key : ∀ (x : Char) (b' : Bool), (isWhiteSpace x = true → b' = true) →
          CleanEnd (x :: collapseAux b' (d :: l)) := by
        intro x b' hx c hc
        cases hr : collapseAux b' (d :: l) with
        | nil =>
          exfalso
          have hall := collapseAux_eq_nil b' (d :: l) hr
          have hne : (d :: l) ≠ [] := by simp
          have hlast := h' _ (List.getLast?_eq_getLast _ hne)
          have := hall _ (List.getLast_mem hne)
          rw [this] at hlast
          exact absurd hlast (by simp)
        | cons e r =>
          rw [hr, List.getLast?_cons_cons, ← hr] at hc
          exact ih b' h' c hc
      unfold collapseAux
      rcases Bool.eq_false_or_eq_true (isWhiteSpace a) with ha | ha
      · simp only [ha, if_true]
        cases b with
        | true => exact ih true h'
        | false =>
          simp only [Bool.false_eq_true, if_false]
          exact key ' ' true (fun _ => rfl)
      · simp only [ha, Bool.false_eq_true, if_false]
        exact key a false (fun hx => absurd hx (by simp [ha]))

theorem collapseAux_fixed (b : Bool) (l : JSString) (hrun : NoRun l)
    (hsp : ∀ c ∈ l, isWhiteSpace c = true → c = ' ')
    (hb : b = true → CleanStart l) : collapseAux b l = l := by
  induction l generalizing b with
  | nil => simp [collapseAux]
  | cons a l ih =>
    unfold NoRun at hrun
    rw [List.chain'_cons'] at hrun
    have hsp' : ∀ c ∈ l, isWhiteSpace c = true → c = ' ' :=
      fun c hc => hsp c (List.mem_cons_of_mem _ hc)
    unfold collapseAux
    rcases Bool.eq_false_or_eq_true (isWhiteSpace a) with ha | ha
    · have hbf : b = false := by
        cases b with
        | false => rfl
        | true =>
          have := hb rfl a rfl
          rw [ha] at this
          exact absurd this (by simp)
      subst hbf
      have hs : a = ' ' := hsp a (List.mem_cons_self _ _) ha
      simp only [ha, if_true, Bool.false_eq_true, if_false]
      rw [ih true hrun.2 hsp', hs]
      intro _ c hc
      have := hrun.1 c (by simpa using hc)
      simpa [ha] using this
    · simp only [ha, Bool.false_eq_true, if_false]
      rw [ih false hrun.2 hsp']
      intro h
      exact absurd h (by simp)

/-! `normalizeSearchText` -/

/-- What the three steps of `normalizeSearchText` leave behind. -/
theorem normalize_steps_spec (s : JSString) :
    CleanStart (collapseSpaces (toLowerCase (trim s))) ∧
    CleanEnd (collapseSpaces (toLowerCase (trim s))) ∧
    NoRun (collapseSpaces (toLowerCase (trim s))) ∧
    NoUpper (collapseSpaces (toLowerCase (trim s))) ∧
    (∀ c ∈ collapseSpaces (toLowerCase (trim s)), isWhiteSpace c = true → c = ' ') := by
  refine ⟨collapseAux_cleanStart _ _ (cleanStart_toLowerCase (cleanStart_trim s)),
    collapseAux_cleanEnd _ _ (cleanEnd_toLowerCase (cleanEnd_trim s)),
    collapseAux_noRun _ _, ?_, ?_⟩
  · intro c hc
    rcases mem_collapseAux _ _ _ hc with h | h
    · rw [h]; exact toLowerChar_of_ws _ (by decide)
    · obtain ⟨a, _, rfl⟩ := List.mem_map.1 h.1
      exact toLowerChar_idem a
  · intro c hc hw
    rcases mem_collapseAux _ _ _ hc with h | h
    · exact h
    · rw [h.2] at hw
      exact absurd hw (by simp)

/-- The result of `normalizeSearchText` in canonical form. -/
theorem normalizeSearchText_spec (x : JSVal) :
    CleanStart (normalizeSearchText x) ∧ CleanEnd (normalizeSearchText x) ∧
    NoRun (normalizeSearchText x) ∧ NoUpper (normalizeSearchText x) ∧
    (∀ c ∈ normalizeSearchText x, isWhiteSpace c = true → c = ' ') := by
  have hnil : CleanStart [] ∧ CleanEnd [] ∧ NoRun [] ∧ NoUpper [] ∧
      (∀ c ∈ ([] : JSString), isWhiteSpace c = true → c = ' ') := by
    refine ⟨?_, ?_, ?_, ?_, ?_⟩
    · intro c hc; simp at hc
    · intro c hc; simp at hc
    · simp [NoRun]
    · intro c hc; simp at hc
    · intro c hc; simp at hc
  cases x with
  | str s =>
    unfold normalizeSearchText
    by_cases he : s.isEmpty = true
    · simpa [he] using hnil
    · simpa [he] using normalize_steps_spec s
  | _ => simpa [normalizeSearchText] using hnil

/-- A string in canonical form is left alone by each of the three steps. -/
theorem steps_fixed (r : JSString) (h1 : CleanStart r) (h2 : CleanEnd r) (h3 : NoRun r)
    (h4 : NoUpper r) (h5 : ∀ c ∈ r, isWhiteSpace c = true → c = ' ') :
    trim r = r ∧ toLowerCase r = r ∧ collapseSpaces r = r := by
  refine ⟨trim_eq_self h1 h2, ?_, collapseAux_fixed _ _ h3 h5 (by simp)⟩
  have e : r.map toLowerChar = r.map id := List.map_congr_left h4
  unfold toLowerCase
  rw [e, List.map_id]

/-- Normalising a normalised string returns it. -/
theorem normalizeSearchText_idem (x : JSVal) :
    normalizeSearchText (str (normalizeSearchText x)) = normalizeSearchText x := by
  obtain ⟨h1, h2, h3, h4, h5⟩ := normalizeSearchText_spec x
  obtain ⟨e1, e2, e3⟩ := steps_fixed _ h1 h2 h3 h4 h5
  generalize normalizeSearchText x = r at *
  show (if r.isEmpty then [] else collapseSpaces (toLowerCase (trim r))) = r
  by_cases he : r.isEmpty = true
  · rw [if_pos he]
    exact (List.isEmpty_iff.1 he).symm
  · rw [if_neg he, e1, e2, e3]

/-- C2: `normalizeSearchText` is idempotent on every input; a non-string input
normalises to the empty string; the result has no leading or trailing white
space, no upper-case letter and no run of two or more white-space characters,
and trimming, lower-casing and collapsing it again change nothing. -/
theorem C2_normalizeSearchText_idempotent (x : JSVal) :
    normalizeSearchText (str (normalizeSearchText x)) = normalizeSearchText x ∧
    ((∃ s, x = str s) ∨ normalizeSearchText x = []) ∧
    CleanStart (normalizeSearchText x) ∧ CleanEnd (normalizeSearchText x) ∧
    NoUpper (normalizeSearchText x) ∧ NoRun (normalizeSearchText x) ∧
    trim (normalizeSearchText x) = normalizeSearchText x ∧
    toLowerCase (normalizeSearchText x) = normalizeSearchText x ∧
    collapseSpaces (normalizeSearchText x) = normalizeSearchText x := by
  obtain ⟨h1, h2, h3, h4, h5⟩ := normalizeSearchText_spec x
  obtain ⟨e1, e2, e3⟩ := steps_fixed _ h1 h2 h3 h4 h5
  refine ⟨normalizeSearchText_idem x, ?_, h1, h2, h4, h3, e1, e2, e3⟩
  cases x with
  | str s => exact Or.inl ⟨s, rfl⟩
  | _ => exact Or.inr rfl


/-! `matchesSearch` -/

theorem includes_iff (t q : JSString) :
    includes t q = true ↔ ∃ before after : JSString, t = before ++ q ++ after := by
  unfold includes
  rw [List.any_eq_true]
  constructor
  · rintro ⟨x, hx, hq⟩
    rw [List.mem_tails] at hx
    rw [List.isPrefixOf_iff_prefix] at hq
    obtain ⟨a, rfl⟩ := hx
    obtain ⟨b, rfl⟩ := hq
    exact ⟨a, b, by simp⟩
  · rintro ⟨a, b, rfl⟩
    refine ⟨q ++ b, ?_, ?_⟩
    · rw [List.mem_tails]
      exact ⟨a, by simp⟩
    · rw [List.isPrefixOf_iff_prefix]
      exact ⟨b, rfl⟩

theorem includes_nil (t : JSString) : includes t [] = true :=
  (includes_iff t []).2 ⟨[], t, by simp⟩

theorem includes_nil_left (q : JSString) (h : q ≠ []) : includes [] q = false := by
  cases q with
  | nil => exact absurd rfl h
  | cons a q => rfl

/-- C6: `matchesSearch` agrees with the reference definition on every text and
query, present or absent (`null` counts as absent like `undefined`), and gives
the three results the specification lists for "Ivan Petrov". -/
theorem C6_matchesSearch_reference :
    (∀ text query : Option JSString,
      matchesSearch (ofText text) (ofText query) = true ↔ MatchesSpec text query) ∧
    (∀ v : JSVal, matchesSearch v null = true ∧
      matchesSearch null v = matchesSearch undefined v) ∧
    matchesSearch (str "Ivan Petrov".toList) (str "PETROV".toList) = true ∧
    matchesSearch (str "Ivan Petrov".toList) (str "petrov ".toList) = true ∧
    matchesSearch (str "Ivan Petrov".toList) (str "xyz".toList) = false := by
  refine ⟨?_, ?_, by decide, by decide, by decide⟩
  · intro text query
    cases query with
    | none => simp [matchesSearch, MatchesSpec, ofText, emptyOrAbsent, truthy]
    | some q =>
      by_cases hq : q.isEmpty = true
      · simp [matchesSearch, MatchesSpec, ofText, emptyOrAbsent, truthy, hq]
      · cases text with
        | none => simp [matchesSearch, MatchesSpec, ofText, emptyOrAbsent, truthy, hq]
        | some t =>
          by_cases ht : t.isEmpty = true
          · simp [matchesSearch, MatchesSpec, ofText, emptyOrAbsent, truthy, hq, ht]
          · simp only [matchesSearch, MatchesSpec, ofText, emptyOrAbsent, truthy, hq, ht,
              toJSString, Bool.not_false, Bool.not_true, Bool.false_eq_true, if_false]
            exact includes_iff _ _
  · intro v
    exact ⟨rfl, rfl⟩


theorem matchesSearch_str (t q : JSString) :
    matchesSearch (str t) (str q) =
      if q = [] then true
      else if t = [] then false
      else includes (normalizeSearchText (str t)) (normalizeSearchText (str q)) := by
  cases q with
  | nil => rfl
  | cons b q =>
    cases t with
    | nil => rfl
    | cons a t => rfl

theorem matchesSearch_normalized (t q : JSString)
    (h : t ≠ [] ∨ q = [] ∨ normalizeSearchText (str q) ≠ []) :
    matchesSearch (str t) (str q) =
      matchesSearch (str (normalizeSearchText (str t)))
        (str (normalizeSearchText (str q))) := by
  rw [matchesSearch_str, matchesSearch_str, normalizeSearchText_idem,
    normalizeSearchText_idem]
  by_cases hq : q = []
  · subst hq
    rfl
  · rw [if_neg hq]
    by_cases hn : normalizeSearchText (str q) = []
    · rw [if_pos hn, hn]
      have ht : t ≠ [] := by
        rcases h with h | h | h
        · exact h
        · exact absurd h hq
        · exact absurd hn h
      rw [if_neg ht]
      exact includes_nil _
    · rw [if_neg hn]
      by_cases ht : t = []
      · subst ht
        rfl
      · rw [if_neg ht]
        by_cases hm : normalizeSearchText (str t) = []
        · rw [if_pos hm, hm]
          exact includes_nil_left _ hn
        · rw [if_neg hm]

/-- C7, refuted as stated: with the empty text and the query of one space,
`matchesSearch` answers false, while on the normalised operands (both empty)
it answers true; and the texts "" and " ", which normalise alike, get
different answers for that query. -/
theorem C7_counterexample :
    matchesSearch (str []) (str [' ']) ≠
      matchesSearch (str (normalizeSearchText (str [])))
        (str (normalizeSearchText (str [' ']))) ∧
    normalizeSearchText (str []) = normalizeSearchText (str [' ']) ∧
    matchesSearch (str []) (str [' ']) ≠ matchesSearch (str [' ']) (str [' ']) := by
  decide

/-- C7, amended: when the text is non-empty, or the query is empty, or the
query has a character that is not white space, `matchesSearch` on the operands
equals `matchesSearch` on their normalised forms; and two such pairs of
operands with the same normalised forms get the same answer. -/
theorem C7_matchesSearch_through_normal_forms (t q : JSString)
    (h : t ≠ [] ∨ q = [] ∨ normalizeSearchText (str q) ≠ []) :
    matchesSearch (str t) (str q) =
      matchesSearch (str (normalizeSearchText (str t)))
        (str (normalizeSearchText (str q))) ∧
    ∀ t2 q2 : JSString, (t2 ≠ [] ∨ q2 = [] ∨ normalizeSearchText (str q2) ≠ []) →
      normalizeSearchText (str t2) = normalizeSearchText (str t) →
      normalizeSearchText (str q2) = normalizeSearchText (str q) →
      matchesSearch (str t2) (str q2) = matchesSearch (str t) (str q) := by
  refine ⟨matchesSearch_normalized t q h, ?_⟩
  intro t2 q2 h2 et eq
  rw [matchesSearch_normalized t q h, matchesSearch_normalized t2 q2 h2, et, eq]

/-- C7, amended, at the text "Ivan  PETROV" and the query " Petrov ". -/
theorem C7_matchesSearch_through_normal_forms_witness :
    ("Ivan  PETROV".toList ≠ [] ∨ " Petrov ".toList = [] ∨
      normalizeSearchText (str " Petrov ".toList) ≠ []) ∧
    matchesSearch (str "Ivan  PETROV".toList) (str " Petrov ".toList) = true ∧
    matchesSearch (str (normalizeSearchText (str "Ivan  PETROV".toList)))
      (str (normalizeSearchText (str " Petrov ".toList))) = true ∧
    matchesSearch (str "Ivan  PETROV".toList) (str " Petrov ".toList) =
      matchesSearch (str (normalizeSearchText (str "Ivan  PETROV".toList)))
        (str (normalizeSearchText (str " Petrov ".toList))) :=
  ⟨Or.inl (by decide), by decide, by decide,
    (C7_matchesSearch_through_normal_forms "Ivan  PETROV".toList " Petrov ".toList
      (Or.inl (by decide))).1⟩


/-! `getNestedValue` -/

theorem splitDot_ne_nil (p : JSString) : splitDot p ≠ [] := by
  cases p with
  | nil => simp [splitDot]
  | cons c cs =>
    unfold splitDot
    by_cases hc : c = '.'
    · simp [hc]
    · simp only [hc, if_false]
      cases splitDot cs <;> simp

/-- Joining the pieces of `splitDot` with dots gives the path back. -/
theorem splitDot_join (p : JSString) : ['.'].intercalate (splitDot p) = p := by
  induction p with
  | nil => rfl
  | cons c cs ih =>
    unfold splitDot
    by_cases hc : c = '.'
    · simp only [hc, if_true]
      have hne := splitDot_ne_nil cs
      cases hs : splitDot cs with
      | nil => exact absurd hs hne
      | cons k ks =>
        rw [hs] at ih
        simp only [List.intercalate, List.intersperse, List.flatten] at ih ⊢
        simpa using ih
    · simp only [hc, if_false]
      have hne := splitDot_ne_nil cs
      cases hs : splitDot cs with
      | nil => exact absurd hs hne
      | cons k ks =>
        rw [hs] at ih
        cases ks with
        | nil =>
          simp only [List.intercalate, List.intersperse, List.flatten] at ih ⊢
          simpa using ih
        | cons k2 ks =>
          simp only [List.intercalate, List.intersperse, List.flatten] at ih ⊢
          simpa using ih

theorem splitDot_dotFree (p : JSString) : ∀ k ∈ splitDot p, '.' ∉ k := by
  induction p with
  | nil => simp [splitDot]
  | cons c cs ih =>
    unfold splitDot
    by_cases hc : c = '.'
    · simp only [hc, if_true]
      intro k hk
      rcases List.mem_cons.1 hk with rfl | hk
      · simp
      · exact ih k hk
    · simp only [hc, if_false]
      cases hs : splitDot cs with
      | nil =>
        intro k hk
        simp only [List.mem_singleton] at hk
        subst hk
        simpa using Ne.symm hc
      | cons k1 ks =>
        rw [hs] at ih
        intro k hk
        rcases List.mem_cons.1 hk with rfl | hk
        · intro hm
          rcases List.mem_cons.1 hm with h | h
          · exact hc h.symm
          · exact ih k1 (List.mem_cons_self _ _) h
        · exact ih k (List.mem_cons_of_mem _ hk)

theorem splitDot_cons_of_ne (c : Char) (cs k : JSString) (ks : List JSString)
    (hc : c ≠ '.') (h : splitDot cs = k :: ks) : splitDot (c :: cs) = (c :: k) :: ks := by
  rw [splitDot]
  simp only [hc, if_false, h]

theorem splitDot_append_dot (k rest : JSString) (hk : '.' ∉ k) :
    splitDot (k ++ '.' :: rest) = k :: splitDot rest := by
  induction k with
  | nil => simp [splitDot]
  | cons c cs ih =>
    have hc : c ≠ '.' := fun h => hk (by simp [h])
    have hcs : '.' ∉ cs := fun h => hk (List.mem_cons_of_mem _ h)
    simp only [List.cons_append]
    exact splitDot_cons_of_ne c _ cs _ hc (ih hcs)

theorem splitDot_of_dotFree (k : JSString) (hk : '.' ∉ k) : splitDot k = [k] := by
  induction k with
  | nil => rfl
  | cons c cs ih =>
    have hc : c ≠ '.' := fun h => hk (by simp [h])
    have hcs : '.' ∉ cs := fun h => hk (List.mem_cons_of_mem _ h)
    exact splitDot_cons_of_ne c _ cs _ hc (ih hcs)

/-- Splitting the path written from dot-free keys gives the keys back. -/
theorem splitDot_joinKeys (keys : List JSString) (h : DotFree keys) :
    splitDot (joinKeys keys) = keys := by
  obtain ⟨hne, hk⟩ := h
  induction keys with
  | nil => exact absurd rfl hne
  | cons k ks ih =>
    cases ks with
    | nil =>
      simpa [joinKeys, List.intercalate, List.intersperse] using
        splitDot_of_dotFree k (hk k (List.mem_cons_self _ _))
    | cons k2 ks =>
      have e : joinKeys (k :: k2 :: ks) = k ++ '.' :: joinKeys (k2 :: ks) := by
        simp [joinKeys, List.intercalate, List.intersperse]
      rw [e, splitDot_append_dot _ _ (hk k (List.mem_cons_self _ _)),
        ih (by simp) (fun x hx => hk x (List.mem_cons_of_mem _ hx))]

theorem digitChar_val (m : Nat) (h : m < 10) : (Nat.digitChar m).toNat - 48 = m := by
  interval_cases m <;> rfl

theorem foldl_toDigitsCore (fuel n : Nat) (ds : List Char) (h : n < fuel) :
    (Nat.toDigitsCore 10 fuel n ds).foldl (fun a c => a * 10 + (c.toNat - 48)) 0 =
      ds.foldl (fun a c => a * 10 + (c.toNat - 48)) n := by
  induction fuel generalizing n ds with
  | zero => omega
  | succ f ih =>
    unfold Nat.toDigitsCore
    simp only []
    by_cases h0 : n / 10 = 0
    · rw [if_pos h0]
      simp only [List.foldl_cons, Nat.zero_mul, Nat.zero_add]
      rw [digitChar_val _ (Nat.mod_lt _ (by decide))]
      congr 1
      omega
    · rw [if_neg h0, ih _ _ (by omega)]
      simp only [List.foldl_cons]
      rw [digitChar_val _ (Nat.mod_lt _ (by decide))]
      congr 1
      omega

/-- Two numbers with the same decimal writing are equal. -/
theorem decimal_injective {i j : Nat} (h : (toString i).toList = (toString j).toList) :
    i = j := by
  have key : ∀ n : Nat,
      (toString n).toList.foldl (fun a c => a * 10 + (c.toNat - 48)) 0 = n := by
    intro n
    show (Nat.toDigits 10 n).foldl (fun a c => a * 10 + (c.toNat - 48)) 0 = n
    unfold Nat.toDigits
    rw [foldl_toDigitsCore _ _ _ (by omega)]
    rfl
  have := congrArg (fun l : List Char => l.foldl (fun a c => a * 10 + (c.toNat - 48)) 0) h
  simp only [key] at this
  exact this

theorem toDigitsCore_digits (fuel n : Nat) (ds : List Char)
    (h : ∀ c ∈ ds, c.isDigit = true) :
    ∀ c ∈ Nat.toDigitsCore 10 fuel n ds, c.isDigit = true := by
  induction fuel generalizing n ds with
  | zero => simpa [Nat.toDigitsCore] using h
  | succ f ih =>
    have hd : (Nat.digitChar (n % 10)).isDigit = true := by
      have : n % 10 < 10 := Nat.mod_lt _ (by decide)
      interval_cases (n % 10) <;> rfl
    unfold Nat.toDigitsCore
    simp only []
    split
    · intro c hc
      rcases List.mem_cons.1 hc with rfl | hc
      · exact hd
      · exact h c hc
    · apply ih
      intro c hc
      rcases List.mem_cons.1 hc with rfl | hc
      · exact hd
      · exact h c hc

theorem decimal_ne_length (i : Nat) : (toString i).toList ≠ "length".toList := by
  intro h
  have hall : ∀ c ∈ (toString i).toList, c.isDigit = true :=
    toDigitsCore_digits _ _ _ (by simp)
  rw [h] at hall
  exact absurd (hall 'l' (by decide)) (by decide)

theorem lookup_eq_some_iff (fields : List (JSString × JSVal)) (key : JSString)
    (v : JSVal) :
    fields.lookup key = some v ↔
      ∃ before after, fields = before ++ (key, v) :: after ∧ ∀ p ∈ before, p.1 ≠ key := by
  induction fields with
  | nil =>
    constructor
    · intro h
      cases h
    · rintro ⟨before, after, he, _⟩
      cases before <;> cases he
  | cons kv rest ih =>
    obtain ⟨k, w⟩ := kv
    rw [List.lookup_cons]
    by_cases hk : key = k
    · subst hk
      simp only [beq_self_eq_true, Option.some.injEq]
      constructor
      · rintro rfl
        exact ⟨[], rest, rfl, by simp⟩
      · rintro ⟨before, after, he, hb⟩
        cases before with
        | nil =>
          simp only [List.nil_append, List.cons.injEq, Prod.mk.injEq, true_and] at he
          exact he.1
        | cons q before =>
          simp only [List.cons_append, List.cons.injEq] at he
          exact absurd (by rw [← he.1]) (hb q (List.mem_cons_self _ _))
    · have hne : (key == k) = false := by simpa using hk
      rw [hne]
      simp only []
      rw [ih]
      constructor
      · rintro ⟨before, after, rfl, hb⟩
        refine ⟨(k, w) :: before, after, rfl, ?_⟩
        intro q hq
        rcases List.mem_cons.1 hq with rfl | hq
        · exact fun h => hk h.symm
        · exact hb q hq
      · rintro ⟨before, after, he, hb⟩
        cases before with
        | nil =>
          simp only [List.nil_append, List.cons.injEq, Prod.mk.injEq] at he
          exact absurd he.1.1.symm hk
        | cons q before =>
          simp only [List.cons_append, List.cons.injEq] at he
          exact ⟨before, after, he.2, fun x hx => hb x (List.mem_cons_of_mem _ hx)⟩

theorem arrayProp_eq_some_iff (items : List JSVal) (key : JSString) (v : JSVal) :
    arrayProp items key = some v ↔
      (key = "length".toList ∧ v = num items.length) ∨
      (∃ i, key = (toString i).toList ∧ items.get? i = some v) := by
  unfold arrayProp
  by_cases hl : key = "length".toList
  · rw [if_pos hl]
    constructor
    · intro h
      exact Or.inl ⟨hl, (Option.some.inj h).symm⟩
    · rintro (⟨_, rfl⟩ | ⟨i, hi, _⟩)
      · rfl
      · exact absurd (hi.symm.trans hl) (decimal_ne_length i)
  · rw [if_neg hl]
    cases hf : (List.range items.length).find? (fun i => (toString i).toList == key) with
    | none =>
      simp only []
      constructor
      · intro h
        cases h
      · rintro (⟨h, _⟩ | ⟨i, hi, hv⟩)
        · exact absurd h hl
        · exfalso
          have hlt : i < items.length := by
            by_contra hge
            rw [List.get?_eq_none.2 (by omega)] at hv
            cases hv
          have := List.find?_eq_none.1 hf i (List.mem_range.2 hlt)
          simp [hi] at this
    | some j =>
      simp only []
      have hj : (toString j).toList = key := by
        have := List.find?_some hf
        simpa using this
      constructor
      · intro h
        exact Or.inr ⟨j, hj.symm, h⟩
      · rintro (⟨h, _⟩ | ⟨i, hi, hv⟩)
        · exact absurd h hl
        · have : j = i := decimal_injective (hj.trans hi)
          rw [this]
          exact hv

theorem ownProperty_iff (value : JSVal) (key : JSString) (v : JSVal) :
    OwnProperty value key v ↔
      match value with
      | obj fields => fields.lookup key = some v
      | arr items => arrayProp items key = some v
      | _ => False := by
  constructor
  · intro h
    cases h with
    | field before after key v hb =>
      exact (lookup_eq_some_iff _ _ _).2 ⟨before, after, rfl, hb⟩
    | index items i v hi =>
      exact (arrayProp_eq_some_iff _ _ _).2 (Or.inr ⟨i, rfl, hi⟩)
    | length items =>
      exact (arrayProp_eq_some_iff _ _ _).2 (Or.inl ⟨rfl, rfl⟩)
  · intro h
    cases value with
    | obj fields =>
      obtain ⟨before, after, rfl, hb⟩ := (lookup_eq_some_iff _ _ _).1 h
      exact OwnProperty.field before after key v hb
    | arr items =>
      rcases (arrayProp_eq_some_iff _ _ _).1 h with ⟨rfl, rfl⟩ | ⟨i, rfl, hi⟩
      · exact OwnProperty.length items
      · exact OwnProperty.index items i v hi
    | undefined => exact h.elim
    | null => exact h.elim
    | bool b => exact h.elim
    | num n => exact h.elim
    | str t => exact h.elim
    | builtin b => exact h.elim

/-- The guarded read of the code finds exactly the properties that are
present, own before supplied by the platform. -/
theorem getProp_eq_some_iff (value : JSVal) (key : JSString) (v : JSVal) :
    getProp value key = some v ↔ HasProperty value key v := by
  unfold HasProperty
  cases value with
  | obj fields =>
    simp only [ownProperty_iff, getProp]
    cases hl : fields.lookup key with
    | none => simp
    | some w => simp
  | arr items =>
    simp only [ownProperty_iff, getProp]
    cases hl : arrayProp items key with
    | none => simp
    | some w => simp
  | builtin b => simp [ownProperty_iff, getProp]
  | undefined => simp [ownProperty_iff, getProp, platformProperty]
  | null => simp [ownProperty_iff, getProp, platformProperty]
  | bool b => simp [ownProperty_iff, getProp, platformProperty]
  | num n => simp [ownProperty_iff, getProp, platformProperty]
  | str t => simp [ownProperty_iff, getProp, platformProperty]

theorem getNestedLoop_of_follows {o : JSVal} {keys : List JSString} {v : JSVal}
    (h : Follows o keys v) :
    getNestedLoop o keys = if truthy v then v else str [] := by
  induction h with
  | here v => rfl
  | step v key keys next result hp _ ih =>
    unfold getNestedLoop
    rw [(getProp_eq_some_iff _ _ _).2 hp]
    exact ih

theorem getNestedLoop_cases (o : JSVal) (keys : List JSString) :
    (getNestedLoop o keys = str [] ∧ ¬ ∃ v, Follows o keys v ∧ truthy v = true) ∨
    (∃ v, Follows o keys v ∧ truthy v = true ∧ getNestedLoop o keys = v) := by
  induction keys generalizing o with
  | nil =>
    by_cases ht : truthy o = true
    · right
      exact ⟨o, Follows.here o, ht, by simp [getNestedLoop, ht]⟩
    · left
      refine ⟨by simp [getNestedLoop, ht], ?_⟩
      rintro ⟨v, hr, hv⟩
      cases hr
      exact ht hv
  | cons key keys ih =>
    cases hp : getProp o key with
    | none =>
      left
      refine ⟨by simp [getNestedLoop, hp], ?_⟩
      rintro ⟨v, hr, _⟩
      cases hr with
      | step _ _ _ next _ hp2 _ =>
        rw [(getProp_eq_some_iff _ _ _).2 hp2] at hp
        cases hp
    | some next =>
      rcases ih next with ⟨he, hn⟩ | ⟨v, hr, hv, he⟩
      · left
        refine ⟨by simp [getNestedLoop, hp, he], ?_⟩
        rintro ⟨v, hr, hv⟩
        cases hr with
        | step _ _ _ next2 _ hp2 hr2 =>
          rw [(getProp_eq_some_iff _ _ _).2 hp2] at hp
          cases hp
          exact hn ⟨v, hr2, hv⟩
      · right
        exact ⟨v, Follows.step o key keys next v ((getProp_eq_some_iff _ _ _).1 hp) hr, hv,
          by simp [getNestedLoop, hp, he]⟩

/-- C8: `getNestedValue` is total and never yields `undefined` or `null`.  For
a present record and a non-empty path written from dot-free keys, it returns
the value reached by following the keys one at a time, each key present in the
value reached so far (an own property, or one the platform supplies, as
`key in value` tests it), when that value is truthy; it returns the empty
string in every other case: absent record, empty path, a key that is not
present at some step, an intermediate value that is not an object, or a falsy
value at the end.  The three results the specification lists hold, and so do
the reads of an array element, of `length`, of an inherited property, and the
cases of an empty path, an empty key and an absent record. -/
theorem C8_getNestedValue_total :
    (∀ (o : JSVal) (path : JSString),
      getNestedValue o path ≠ undefined ∧ getNestedValue o path ≠ null) ∧
    (∀ (o : JSVal) (keys : List JSString) (v : JSVal),
      truthy o = true → DotFree keys → joinKeys keys ≠ [] → Follows o keys v →
      truthy v = true → getNestedValue o (joinKeys keys) = v) ∧
    (∀ (o : JSVal) (path : JSString),
      ¬ (truthy o = true ∧ path ≠ [] ∧
          ∃ keys v, DotFree keys ∧ joinKeys keys = path ∧ Follows o keys v ∧
            truthy v = true) →
      getNestedValue o path = str []) ∧
    getNestedValue (obj [("owner".toList, obj [("name".toList, str "Ann".toList)])])
      "owner.name".toList = str "Ann".toList ∧
    getNestedValue (obj [("owner".toList, obj [("name".toList, str "Ann".toList)])])
      "owner.age".toList = str [] ∧
    getNestedValue (obj []) "a.b.c".toList = str [] ∧
    getNestedValue (obj [("tags".toList, arr [str "x".toList, str "y".toList])])
      "tags.1".toList = str "y".toList ∧
    getNestedValue (obj [("tags".toList, arr [str "x".toList, str "y".toList])])
      "tags.length".toList = num 2 ∧
    getNestedValue (obj [("tags".toList, arr [str "x".toList, str "y".toList])])
      "tags.2".toList = str [] ∧
    getNestedValue (obj [("n".toList, num 0), ("s".toList, str "abc".toList)])
      "n".toList = str [] ∧
    getNestedValue (obj [("n".toList, num 0), ("s".toList, str "abc".toList)])
      "s.length".toList = str [] ∧
    getNestedValue (obj []) "constructor".toList = builtin (.fn "Object".toList) ∧
    getNestedValue (obj []) "constructor.name".toList = str [] ∧
    getNestedValue (obj [("a".toList, arr [num 1])]) "a.map".toList =
      builtin (.fn "map".toList) ∧
    getNestedValue (obj []) "__proto__".toList = builtin .objectPrototype ∧
    getNestedValue (obj []) "__proto__.__proto__".toList = str [] ∧
    getNestedValue (obj [([], str "x".toList)]) [] = str [] ∧
    getNestedValue (obj [("a".toList, obj [([], str "x".toList)])]) "a.".toList =
      str "x".toList ∧
    getNestedValue undefined "a".toList = str [] := by
  have hval : ∀ (o : JSVal) (path : JSString), truthy o = true → path ≠ [] →
      getNestedValue o path = getNestedLoop o (splitDot path) := by
    intro o path ho hp
    have : path.isEmpty = false := by
      cases path with
      | nil => exact absurd rfl hp
      | cons c cs => rfl
    simp [getNestedValue, ho, this]
  have hempty : ∀ (o : JSVal) (path : JSString), ¬ (truthy o = true ∧ path ≠ []) →
      getNestedValue o path = str [] := by
    intro o path h
    unfold getNestedValue
    by_cases ho : truthy o = true
    · have : path = [] := by
        by_contra hp
        exact h ⟨ho, hp⟩
      simp [this]
    · simp [ho]
  refine ⟨?_, ?_, ?_, ?_⟩
  rotate_left 3
  · decide
  · intro o path
    by_cases h : truthy o = true ∧ path ≠ []
    · rw [hval o path h.1 h.2]
      rcases getNestedLoop_cases o (splitDot path) with ⟨he, _⟩ | ⟨v, _, hv, he⟩
      · rw [he]
        exact ⟨(by intro h; cases h), (by intro h; cases h)⟩
      · rw [he]
        constructor
        · intro h; rw [h] at hv; exact absurd hv (by decide)
        · intro h; rw [h] at hv; exact absurd hv (by decide)
    · rw [hempty o path h]
      exact ⟨(by intro h; cases h), (by intro h; cases h)⟩
  · intro o keys v ho hk hp hr hv
    rw [hval o _ ho hp, splitDot_joinKeys keys hk, getNestedLoop_of_follows hr, hv]
    rfl
  · intro o path h
    by_cases h2 : truthy o = true ∧ path ≠ []
    · rw [hval o path h2.1 h2.2]
      rcases getNestedLoop_cases o (splitDot path) with ⟨he, _⟩ | ⟨v, hr, hv, _⟩
      · exact he
      · exact (h ⟨h2.1, h2.2, splitDot path, v,
          ⟨splitDot_ne_nil path, splitDot_dotFree path⟩, splitDot_join path, hr, hv⟩).elim
    · exact hempty o path h2

/-! `filterBySearch` -/

theorem trim_eq_nil_iff (s : JSString) : trim s = [] ↔ Blank s := by
  unfold trim Blank
  rw [List.rdropWhile_eq_nil_iff]
  constructor
  · intro h
    have hd : s.dropWhile isWhiteSpace = [] := by
      cases hs : s.dropWhile isWhiteSpace with
      | nil => rfl
      | cons a r =>
        have h1 := cleanStart_dropWhile s a (by rw [hs]; rfl)
        have h2 := h a (by rw [hs]; exact List.mem_cons_self _ _)
        rw [h1] at h2
        exact absurd h2 (by simp)
    intro c hc
    exact (List.dropWhile_eq_nil_iff.1 hd) c hc
  · intro h c hc
    exact h c ((List.dropWhile_sublist _).subset hc)

theorem normalize_ne_nil {q : JSString} (h : ¬ Blank q) :
    normalizeSearchText (str q) ≠ [] := by
  have ht : trim q ≠ [] := fun e => h ((trim_eq_nil_iff q).1 e)
  have hq : q.isEmpty = false := by
    cases q with
    | nil => exact absurd (fun c hc => by simp at hc) h
    | cons a q => rfl
  simp only [normalizeSearchText, hq, Bool.false_eq_true, if_false]
  intro e
  have hall := collapseAux_eq_nil _ _ e
  cases hu : trim q with
  | nil => exact ht hu
  | cons a r =>
    have h1 : isWhiteSpace a = false := cleanStart_trim q a (by rw [hu]; rfl)
    have h2 := hall (toLowerChar a) (by rw [hu]; simp [toLowerCase])
    rw [isWhiteSpace_toLowerChar, h1] at h2
    exact absurd h2 (by simp)

theorem ne_nil_of_not_blank {q : JSString} (h : ¬ Blank q) : q ≠ [] := by
  rintro rfl
  exact h (fun c hc => by simp at hc)

/-- For a query that is not blank, testing against the normalised query and
against the raw query give the same answer. -/
theorem matchesSearch_normalizedSearch (text : JSVal) {q : JSString} (h : ¬ Blank q) :
    matchesSearch text (str (normalizeSearchText (str q))) = matchesSearch text (str q) := by
  have h1 := normalize_ne_nil h
  have h2 := ne_nil_of_not_blank h
  have t1 : truthy (str (normalizeSearchText (str q))) = true := by
    cases hn : normalizeSearchText (str q) with
    | nil => exact absurd hn h1
    | cons a r => rfl
  have t2 : truthy (str q) = true := by
    cases q with
    | nil => exact absurd rfl h2
    | cons a r => rfl
  unfold matchesSearch
  simp only [t1, t2, Bool.not_true, Bool.false_eq_true, if_false, toJSString,
    normalizeSearchText_idem]

theorem arrayFilter_ok (keep : JSVal → Except JSThrow Bool) (p : JSVal → Bool)
    (items : List JSVal) (h : ∀ r ∈ items, keep r = .ok (p r)) :
    arrayFilter keep items = .ok (items.filter p) := by
  induction items with
  | nil => rfl
  | cons a l ih =>
    have ha := h a (List.mem_cons_self _ _)
    have hl := ih (fun r hr => h r (List.mem_cons_of_mem _ hr))
    unfold arrayFilter
    rw [ha, hl]
    cases hp : p a <;> simp [List.filter, hp]

theorem arrayFilter_error (keep : JSVal → Except JSThrow Bool)
    (before : List JSVal) (r : JSVal) (after : List JSVal) (e : JSThrow)
    (h : ∀ x ∈ before, ∃ b, keep x = .ok b) (hr : keep r = .error e) :
    arrayFilter keep (before ++ r :: after) = .error e := by
  induction before with
  | nil =>
    simp only [List.nil_append]
    unfold arrayFilter
    rw [hr]
  | cons a l ih =>
    obtain ⟨b, hb⟩ := h a (List.mem_cons_self _ _)
    have hl := ih (fun x hx => h x (List.mem_cons_of_mem _ hx))
    simp only [List.cons_append]
    unfold arrayFilter
    rw [hb, hl]

theorem filterBySearch_of_not_blank (items : List JSVal) {q : JSString} (h : ¬ Blank q)
    (sf : SearchFields) :
    filterBySearch items (str q) sf =
      arrayFilter (itemMatches sf (str (normalizeSearchText (str q)))) items := by
  have h2 := ne_nil_of_not_blank h
  have ht : trim q ≠ [] := fun e => h ((trim_eq_nil_iff q).1 e)
  have t2 : truthy (str q) = true := by
    cases q with
    | nil => exact absurd rfl h2
    | cons a r => rfl
  have t3 : truthy (str (trim q)) = true := by
    cases hu : trim q with
    | nil => exact absurd hu ht
    | cons a r => rfl
  unfold filterBySearch
  simp only [t2, t3, Bool.not_true, Bool.false_eq_true, if_false]

/-- C5: with a query that is empty or white space only, `filterBySearch`
returns the input sequence itself, whatever the selector; the selector is not
run on any record, so a projection that would raise on every record changes
nothing.  An absent query does the same. -/
theorem C5_blank_query_returns_input (items : List JSVal) (s : JSString)
    (searchFields : SearchFields) (h : Blank s) :
    filterBySearch items (str s) searchFields = .ok items ∧
    filterBySearch items (str s) (.func (fun _ => .error .typeError)) = .ok items ∧
    filterBySearch items undefined searchFields = .ok items := by
  have key : ∀ sf, filterBySearch items (str s) sf = .ok items := by
    intro sf
    have ht : trim s = [] := (trim_eq_nil_iff s).2 h
    unfold filterBySearch
    by_cases hs : truthy (str s) = true
    · simp [hs, ht, truthy]
    · simp [hs]
  exact ⟨key _, key _, rfl⟩

/-- C5 at the two records of the specification and a query of white space. -/
theorem C5_blank_query_returns_input_witness :
    Blank " \t ".toList ∧
    filterBySearch
      [obj [("name".toList, str "Ann".toList), ("club".toList, str "A".toList)],
        obj [("name".toList, str "Bob".toList), ("club".toList, str "B".toList)]]
      (str " \t ".toList) (.fields ["name".toList]) =
      .ok [obj [("name".toList, str "Ann".toList), ("club".toList, str "A".toList)],
        obj [("name".toList, str "Bob".toList), ("club".toList, str "B".toList)]] :=
  ⟨by decide,
    (C5_blank_query_returns_input _ " \t ".toList (.fields ["name".toList])
      (by decide)).1⟩


/-- C3: with a query that is not blank and a list of field paths,
`filterBySearch` returns exactly the records, in input order and multiplicity,
for which `matchesSearch(getNestedValue(r, p), query)` holds for some path `p`
of the list, `query` being the raw query; the test against the normalised
query, which the code makes, agrees with it; an empty path list gives an empty
result. -/
theorem C3_field_paths_filter (items : List JSVal) (query : JSString)
    (paths : List JSString) (h : ¬ Blank query) :
    filterBySearch items (str query) (.fields paths) =
      .ok (items.filter (fun r =>
        paths.any (fun p => matchesSearch (getNestedValue r p) (str query)))) ∧
    (∀ (r : JSVal) (p : JSString),
      matchesSearch (getNestedValue r p) (str (normalizeSearchText (str query))) =
        matchesSearch (getNestedValue r p) (str query)) ∧
    filterBySearch items (str query) (.fields []) = .ok [] := by
  have key : ∀ ps : List JSString, filterBySearch items (str query) (.fields ps) =
      .ok (items.filter (fun r =>
        ps.any (fun p => matchesSearch (getNestedValue r p) (str query)))) := by
    intro ps
    rw [filterBySearch_of_not_blank items h]
    apply arrayFilter_ok
    intro r _
    simp only [itemMatches, matchesSearch_normalizedSearch _ h]
  refine ⟨key paths, fun r p => matchesSearch_normalizedSearch _ h, ?_⟩
  rw [key []]
  simp

/-- C3 at the two records of the specification: the query "rome" on the
field `city` keeps both, the query "ann" on the field `city` keeps none. -/
theorem C3_field_paths_filter_witness :
    ¬ Blank "rome".toList ∧
    filterBySearch
      [obj [("name".toList, str "Ann".toList), ("city".toList, str "Rome".toList)],
        obj [("name".toList, str "Bob".toList), ("city".toList, str "Rome".toList)]]
      (str "rome".toList) (.fields ["city".toList]) =
      .ok [obj [("name".toList, str "Ann".toList), ("city".toList, str "Rome".toList)],
        obj [("name".toList, str "Bob".toList), ("city".toList, str "Rome".toList)]] ∧
    filterBySearch
      [obj [("name".toList, str "Ann".toList), ("city".toList, str "Rome".toList)],
        obj [("name".toList, str "Bob".toList), ("city".toList, str "Rome".toList)]]
      (str "ann".toList) (.fields ["city".toList]) = .ok [] := by
  refine ⟨by decide, ?_, by decide⟩
  rw [(C3_field_paths_filter _ "rome".toList ["city".toList] (by decide)).1]
  decide

theorem mem_ownValuesAux (seen : List JSString) (fields : List (JSString × JSVal))
    (w : JSVal) :
    w ∈ ownValuesAux seen fields ↔ ∃ k, k ∉ seen ∧ fields.lookup k = some w := by
  induction fields generalizing seen with
  | nil => simp [ownValuesAux]
  | cons kv rest ih =>
    obtain ⟨k, v⟩ := kv
    unfold ownValuesAux
    by_cases hk : k ∈ seen
    · simp only [hk, if_true]
      rw [ih]
      constructor
      · rintro ⟨k2, h1, h2⟩
        refine ⟨k2, h1, ?_⟩
        have hne : (k2 == k) = false := by
          simp only [beq_eq_false_iff_ne, ne_eq]
          rintro rfl
          exact h1 hk
        rw [List.lookup_cons, hne]
        exact h2
      · rintro ⟨k2, h1, h2⟩
        refine ⟨k2, h1, ?_⟩
        have hne : (k2 == k) = false := by
          simp only [beq_eq_false_iff_ne, ne_eq]
          rintro rfl
          exact h1 hk
        rw [List.lookup_cons, hne] at h2
        exact h2
    · simp only [hk, if_false, List.mem_cons]
      rw [ih]
      constructor
      · rintro (rfl | ⟨k2, h1, h2⟩)
        · exact ⟨k, hk, by rw [List.lookup_cons]; simp⟩
        · have hne : (k2 == k) = false := by
            simp only [beq_eq_false_iff_ne, ne_eq]
            rintro rfl
            exact h1 (List.mem_cons_self _ _)
          refine ⟨k2, fun hm => h1 (List.mem_cons_of_mem _ hm), ?_⟩
          rw [List.lookup_cons, hne]
          exact h2
      · rintro ⟨k2, h1, h2⟩
        by_cases he : k2 = k
        · subst he
          rw [List.lookup_cons] at h2
          simp only [beq_self_eq_true, Option.some.injEq] at h2
          exact Or.inl h2.symm
        · right
          have hne : (k2 == k) = false := by simpa using he
          rw [List.lookup_cons, hne] at h2
          refine ⟨k2, ?_, h2⟩
          intro hm
          rcases List.mem_cons.1 hm with hm | hm
          · exact he hm
          · exact h1 hm

theorem scalarMatch_iff (fields : List (JSString × JSVal)) (query : JSString) :
    scalarMatch fields query = true ↔ HasScalarMatch fields query := by
  unfold scalarMatch HasScalarMatch
  rw [List.any_eq_true]
  constructor
  · rintro ⟨v, hv, hm⟩
    obtain ⟨k, _, hk⟩ := (mem_ownValuesAux [] fields v).1 hv
    cases v with
    | str s => exact ⟨k, _, hk, Or.inl ⟨s, rfl⟩, hm⟩
    | num n => exact ⟨k, _, hk, Or.inr ⟨n, rfl⟩, hm⟩
    | undefined => simp at hm
    | null => simp at hm
    | bool b => simp at hm
    | obj fs => simp at hm
    | arr l => simp at hm
    | builtin b => simp at hm
  · rintro ⟨k, v, hk, hs, hm⟩
    refine ⟨v, (mem_ownValuesAux [] fields v).2 ⟨k, by simp, hk⟩, ?_⟩
    rcases hs with ⟨s, rfl⟩ | ⟨n, rfl⟩
    · exact hm
    · exact hm

/-- C4: with a query that is not blank and no selector, `filterBySearch` keeps
a record exactly when some direct field of it holds a text or number value `v`
with `matchesSearch(String(v), query)`; fields holding nested records,
collections, booleans or `null` do not count, and a numeric field equal to 0
matches the query "0". -/
theorem C4_default_selector_filter (records : List (List (JSString × JSVal)))
    (query : JSString) (h : ¬ Blank query) :
    (∃ keep : List (JSString × JSVal) → Bool,
      (∀ fields, keep fields = true ↔ HasScalarMatch fields query) ∧
      filterBySearch (records.map obj) (str query) .omitted =
        .ok ((records.filter keep).map obj)) ∧
    (∀ fields : List (JSString × JSVal),
      (∀ k v, fields.lookup k = some v → (∀ s, v ≠ str s) ∧ (∀ n, v ≠ num n)) →
      filterBySearch [obj fields] (str query) .omitted = .ok []) ∧
    filterBySearch [obj [("n".toList, num 0)]] (str "0".toList) .omitted =
      .ok [obj [("n".toList, num 0)]] ∧
    filterBySearch
      [obj [("a".toList, obj [("b".toList, str "true null".toList)]),
        ("c".toList, arr [str "true null".toList]), ("d".toList, bool true),
        ("e".toList, null)]]
      (str "null".toList) .omitted = .ok [] := by
  have key : ∀ recs : List (List (JSString × JSVal)),
      filterBySearch (recs.map obj) (str query) .omitted =
        .ok ((recs.filter (fun fs => scalarMatch fs query)).map obj) := by
    intro recs
    rw [filterBySearch_of_not_blank _ h]
    rw [arrayFilter_ok _ (fun r => match r with
      | obj fs => scalarMatch fs query
      | _ => false)]
    · rw [List.filter_map]
      rfl
    · intro r hr
      obtain ⟨fs, _, rfl⟩ := List.mem_map.1 hr
      simp only [itemMatches, objectValues, scalarMatch,
        matchesSearch_normalizedSearch _ h]
  refine ⟨⟨fun fs => scalarMatch fs query, fun fs => scalarMatch_iff fs query,
    key records⟩, ?_, by decide, by decide⟩
  intro fields hf
  have := key [fields]
  simp only [List.map_cons, List.map_nil] at this
  rw [this]
  have hno : scalarMatch fields query = false := by
    rw [Bool.eq_false_iff]
    intro hm
    obtain ⟨k, v, hk, hs, _⟩ := (scalarMatch_iff fields query).1 hm
    rcases hs with ⟨s, rfl⟩ | ⟨n, rfl⟩
    · exact (hf k _ hk).1 s rfl
    · exact (hf k _ hk).2 n rfl
  simp [hno]

/-- C4 at two records and the query "ann". -/
theorem C4_default_selector_filter_witness :
    ¬ Blank "ann".toList ∧
    ∃ keep : List (JSString × JSVal) → Bool,
      (∀ fields, keep fields = true ↔ HasScalarMatch fields "ann".toList) ∧
      filterBySearch
        ([[("name".toList, str "Ann".toList), ("age".toList, num 30)],
          [("name".toList, str "Bob".toList), ("tags".toList, arr [str "ann".toList])]].map
          obj)
        (str "ann".toList) .omitted =
        .ok (([[("name".toList, str "Ann".toList), ("age".toList, num 30)],
          [("name".toList, str "Bob".toList),
            ("tags".toList, arr [str "ann".toList])]].filter keep).map obj) :=
  ⟨by decide, (C4_default_selector_filter _ "ann".toList (by decide)).1⟩


/-- C1, refuted as stated: the projection `item => item.name.trim()` raises
on the first record, which has no `name`, and that exception ends the whole
call; the second record, whose text matches, is not returned. -/
theorem C1_counterexample :
    filterBySearch
        [obj [("id".toList, num 1)], obj [("name".toList, str "Query".toList)]]
        (str "q".toList) (.func trimmedName) = .error .typeError ∧
    filterBySearch
        [obj [("id".toList, num 1)], obj [("name".toList, str "Query".toList)]]
        (str "q".toList) (.func trimmedName) ≠
      .ok [obj [("name".toList, str "Query".toList)]] := by
  decide

/-- C1, amended: with a query that is not blank and a projection function, a
record for which the projection returns `undefined` is a non-match; when the
projection raises on no record, the result is exactly the records whose
projected text matches the query, in input order; when it raises on some
record, the call ends with the exception of the first such record. -/
theorem C1_projection_filter (items : List JSVal) (query : JSString)
    (f : JSVal → Except JSThrow JSVal) (h : ¬ Blank query) :
    ((∀ r ∈ items, ∃ text, f r = .ok text) →
      filterBySearch items (str query) (.func f) =
        .ok (items.filter (projectionMatches f query))) ∧
    (∀ r, f r = .ok undefined → projectionMatches f query r = false) ∧
    (∀ (before : List JSVal) (r : JSVal) (after : List JSVal) (e : JSThrow),
      items = before ++ r :: after → (∀ x ∈ before, ∃ text, f x = .ok text) →
      f r = .error e →
      filterBySearch items (str query) (.func f) = .error e) := by
  refine ⟨?_, ?_, ?_⟩
  · intro hok
    rw [filterBySearch_of_not_blank items h]
    apply arrayFilter_ok
    intro r hr
    obtain ⟨text, ht⟩ := hok r hr
    simp only [itemMatches, projectionMatches, ht, matchesSearch_normalizedSearch _ h]
  · intro r hr
    have t2 : truthy (str query) = true := by
      cases query with
      | nil => exact absurd rfl (ne_nil_of_not_blank h)
      | cons a q => rfl
    simp only [projectionMatches, hr, matchesSearch, t2]
    rfl
  · intro before r after e hi hb hr
    rw [filterBySearch_of_not_blank items h, hi]
    apply arrayFilter_error
    · intro x hx
      obtain ⟨text, ht⟩ := hb x hx
      exact ⟨matchesSearch text (str (normalizeSearchText (str query))), by
        simp only [itemMatches, ht]⟩
    · simp only [itemMatches, hr]

/-- C1 at a concrete input: the projection `item => item.name` returns
`undefined` for the first record, which is dropped, and filtering goes on. -/
theorem C1_projection_filter_witness :
    ¬ Blank "q".toList ∧
    (∀ r ∈ [obj [("id".toList, num 1)], obj [("name".toList, str "Query".toList)],
        obj [("name".toList, str "other".toList)]],
      ∃ text, nameOf r = .ok text) ∧
    nameOf (obj [("id".toList, num 1)]) = .ok undefined ∧
    filterBySearch
        [obj [("id".toList, num 1)], obj [("name".toList, str "Query".toList)],
          obj [("name".toList, str "other".toList)]]
        (str "q".toList) (.func nameOf) =
      .ok [obj [("name".toList, str "Query".toList)]] := by
  have hok : ∀ r ∈ [obj [("id".toList, num 1)],
      obj [("name".toList, str "Query".toList)],
      obj [("name".toList, str "other".toList)]], ∃ text, nameOf r = .ok text := by
    intro r hr
    simp only [List.mem_cons, List.mem_singleton, List.not_mem_nil, or_false] at hr
    rcases hr with rfl | rfl | rfl <;> exact ⟨_, rfl⟩
  refine ⟨by decide, hok, rfl, ?_⟩
  rw [(C1_projection_filter _ "q".toList nameOf (by decide)).1 hok]
  decide

/-! Debouncing -/

theorem createSearchHandler_eq_rearm {ε : Type} (delay : Nat) :
    (createSearchHandler delay : ε → World ε → World ε) = rearm .callbackOf delay := rfl

theorem debounce_eq_rearm {ε : Type} (wait : Nat) :
    (debounce wait : ε → World ε → World ε) = rearm .later wait := rfl

theorem earliest_eq_none {ε : Type} (l : List (Timer ε)) (h : earliest l = none) :
    l = [] := by
  cases l with
  | nil => rfl
  | cons t rest =>
    unfold earliest at h
    cases he : earliest rest with
    | none => rw [he] at h; cases h
    | some u =>
      rw [he] at h
      simp only at h
      split at h <;> cases h

theorem earliest_mem {ε : Type} (l : List (Timer ε)) (tm : Timer ε)
    (h : earliest l = some tm) : tm ∈ l := by
  induction l generalizing tm with
  | nil => cases h
  | cons t rest ih =>
    unfold earliest at h
    cases he : earliest rest with
    | none =>
      rw [he] at h
      cases h
      exact List.mem_cons_self _ _
    | some u =>
      rw [he] at h
      simp only at h
      split at h
      · cases h
        exact List.mem_cons_self _ _
      · cases h
        exact List.mem_cons_of_mem _ (ih _ he)

theorem runBody_pending {ε : Type} (w : World ε) (body : TimerBody ε) :
    (runBody w body).pending.length ≤ w.pending.length ∧
    ∀ tm ∈ (runBody w body).pending, tm ∈ w.pending := by
  cases body with
  | callbackOf event => exact ⟨le_refl _, fun tm h => h⟩
  | later args =>
    cases ht : w.timeout with
    | none =>
      simp only [runBody, callCallback, clearTimeout, ht]
      exact ⟨le_refl _, fun tm h => h⟩
    | some hd =>
      simp only [runBody, callCallback, clearTimeout, ht]
      exact ⟨List.length_filter_le _ _, fun tm h => (List.mem_filter.1 h).1⟩

/-- The rounds of `advanceTo` are enough: once the pending timers, at most
`fuel` of them, have had their turn, none that is due by `t` is left. -/
theorem runDue_none_due {ε : Type} (t : Nat) :
    ∀ (fuel : Nat) (w : World ε), w.pending.length ≤ fuel →
      ∀ tm ∈ (runDue fuel t w).pending, t < tm.deadline := by
  intro fuel
  induction fuel with
  | zero =>
    intro w hw tm htm
    have : w.pending = [] := List.length_eq_zero.1 (Nat.le_zero.1 hw)
    simp only [runDue, this] at htm
    cases htm
  | succ n ih =>
    intro w hw tm htm
    unfold runDue at htm
    cases he : earliest (w.pending.filter (fun u => decide (u.deadline ≤ t))) with
    | none =>
      rw [he] at htm
      simp only at htm
      have hnil := earliest_eq_none _ he
      by_contra hlt
      have hmem : tm ∈ w.pending.filter (fun u => decide (u.deadline ≤ t)) :=
        List.mem_filter.2 ⟨htm, by simp only [decide_eq_true_eq]; omega⟩
      rw [hnil] at hmem
      cases hmem
    | some first =>
      rw [he] at htm
      simp only at htm
      have hfirst : first ∈ w.pending := (List.mem_filter.1 (earliest_mem _ _ he)).1
      have hlt : (w.pending.filter (fun u => u.handle != first.handle)).length <
          w.pending.length := by
        apply List.length_filter_lt_length_iff_exists.2
        exact ⟨first, hfirst, by simp⟩
      refine ih _ ?_ tm htm
      have := (runBody_pending
        { w with
          now := max w.now first.deadline
          pending := w.pending.filter (fun u => u.handle != first.handle) }
        first.body).1
      simp only at this
      omega

theorem advanceTo_none_due {ε : Type} (t : Nat) (w : World ε) :
    ∀ tm ∈ (advanceTo t w).pending, t < tm.deadline :=
  runDue_none_due t w.pending.length w (le_refl _)

theorem advanceTo_armed_early {ε : Type} {w : World ε} {t delay : Nat}
    {body : TimerBody ε} (h : Armed w t delay body) (T : Nat) (h1 : t ≤ T)
    (h2 : T < t + delay) :
    (advanceTo T w).now = T ∧ (advanceTo T w).calls = [] ∧
    (advanceTo T w).timeout = w.timeout ∧ (advanceTo T w).pending = w.pending ∧
    (advanceTo T w).nextHandle = w.nextHandle := by
  obtain ⟨hn, hc, hd, ht, hp⟩ := h
  have hf : w.pending.filter (fun tm => decide (tm.deadline ≤ T)) = [] := by
    rw [hp]
    simp only [List.filter_cons, List.filter_nil]
    have : ¬ (t + delay ≤ T) := by omega
    simp [this]
  have hr : runDue w.pending.length T w = w := by
    rw [hp]
    simp only [List.length_singleton, runDue]
    rw [hf]
    rfl
  unfold advanceTo
  simp only [hr, hn, hc]
  refine ⟨by omega, trivial, trivial, trivial, trivial⟩

theorem rearm_armed {ε : Type} (mk : ε → TimerBody ε) (delay : Nat) (event : ε)
    (w : World ε) (t : Nat) (hn : w.now = t) (hc : w.calls = [])
    (hp : w.pending = [] ∨
      ∃ h d b, w.timeout = some h ∧ w.pending = [{ handle := h, deadline := d, body := b }]) :
    Armed (rearm mk delay event w) t delay (mk event) := by
  have hcl : (clearTimeout w w.timeout).pending = [] := by
    rcases hp with hp | ⟨h, d, b, ht, hp⟩
    · cases hto : w.timeout with
      | none => simp [clearTimeout, hp]
      | some h => simp [clearTimeout, hp]
    · rw [ht]
      simp [clearTimeout, hp]
  have hcn : (clearTimeout w w.timeout).now = t := by
    cases hto : w.timeout <;> simp [clearTimeout, hn]
  have hcc : (clearTimeout w w.timeout).calls = [] := by
    cases hto : w.timeout <;> simp [clearTimeout, hc]
  refine ⟨?_, ?_, (clearTimeout w w.timeout).nextHandle, ?_, ?_⟩
  · simp [rearm, setTimeout, hcn]
  · simp [rearm, setTimeout, hcc]
  · simp [rearm, setTimeout]
  · simp [rearm, setTimeout, hcl, hcn]

theorem dispatchAt_initial_armed {ε : Type} (mk : ε → TimerBody ε) (delay : Nat)
    (p : Nat × ε) :
    Armed (dispatchAt (rearm mk delay) p.1 p.2 (World.initial ε)) p.1 delay (mk p.2) := by
  apply rearm_armed
  · simp [advanceTo, runDue, World.initial]
  · simp [advanceTo, runDue, World.initial]
  · left
    simp [advanceTo, runDue, World.initial]

theorem dispatchAt_armed {ε : Type} (mk : ε → TimerBody ε) (delay : Nat)
    {w : World ε} {t : Nat} {body : TimerBody ε} (h : Armed w t delay body)
    (p : Nat × ε) (h1 : t ≤ p.1) (h2 : p.1 < t + delay) :
    Armed (dispatchAt (rearm mk delay) p.1 p.2 w) p.1 delay (mk p.2) := by
  obtain ⟨an, ac, at_, ap, ah⟩ := advanceTo_armed_early h p.1 h1 h2
  obtain ⟨_, _, hd, ht, hp⟩ := h
  apply rearm_armed
  · exact an
  · exact ac
  · right
    exact ⟨hd, _, _, by rw [at_, ht], by rw [ap, hp]⟩

theorem dispatchAll_armed {ε : Type} (mk : ε → TimerBody ε) (delay : Nat)
    (last : Nat × ε) (inv : List (Nat × ε)) :
    ∀ (w : World ε) (p : Nat × ε) (body : TimerBody ε), Armed w p.1 delay body →
      Rapid delay (p :: (inv ++ [last])) →
      Armed (dispatchAll (rearm mk delay) (inv ++ [last]) w) last.1 delay (mk last.2) := by
  induction inv with
  | nil =>
    intro w p body hw hr
    unfold Rapid at hr
    simp only [List.nil_append, List.chain'_cons, List.chain'_singleton, and_true] at hr
    exact dispatchAt_armed mk delay hw last hr.1 hr.2
  | cons q inv ih =>
    intro w p body hw hr
    unfold Rapid at hr
    simp only [List.cons_append, List.chain'_cons] at hr
    have hq := dispatchAt_armed mk delay hw q hr.1.1 hr.1.2
    exact ih _ q _ hq hr.2

theorem burst_armed {ε : Type} (mk : ε → TimerBody ε) (delay : Nat)
    (inv : List (Nat × ε)) (last : Nat × ε) (h : Rapid delay (inv ++ [last])) :
    Armed (dispatchAll (rearm mk delay) (inv ++ [last]) (World.initial ε))
      last.1 delay (mk last.2) := by
  cases inv with
  | nil => exact dispatchAt_initial_armed mk delay last
  | cons p inv =>
    exact dispatchAll_armed mk delay last inv _ p _ (dispatchAt_initial_armed mk delay p) h

theorem advanceTo_armed_calls {ε : Type} {w : World ε} {t delay : Nat}
    {body : TimerBody ε} (h : Armed w t delay body) (T : Nat) :
    (advanceTo T w).calls =
      if t + delay ≤ T then [(t + delay, body.argument)] else [] := by
  obtain ⟨hn, hc, hd, ht, hp⟩ := h
  by_cases hT : t + delay ≤ T
  · rw [if_pos hT]
    unfold advanceTo
    rw [hp]
    simp only [List.length_singleton, runDue, hp, List.filter_cons, List.filter_nil, hT,
      decide_True, if_true, earliest]
    cases body with
    | callbackOf event =>
      simp [runBody, callCallback, runDue, hc, hn, TimerBody.argument]
    | later args =>
      simp [runBody, callCallback, clearTimeout, runDue, hc, hn, ht, TimerBody.argument]
  · rw [if_neg hT]
    unfold advanceTo
    rw [hp]
    simp only [List.length_singleton, runDue, hp, List.filter_cons, List.filter_nil, hT,
      decide_False, Bool.false_eq_true, if_false, earliest]
    exact hc

/-- C9: for the handler of `createSearchHandler(callback, delay)` and for
`debounce(func, wait)`, after a non-empty sequence of invocations each arriving
less than `delay` after the previous one, the callback is called exactly once,
with the argument of the last invocation, at the time of the last invocation
plus `delay`: at any time `T` the log of calls has that one entry when
`T` has reached that time and is empty before. -/
theorem C9_debounce_fires_once (ε : Type) (delay : Nat) (earlier : List (Nat × ε))
    (last : Nat × ε) (h : Rapid delay (earlier ++ [last])) (T : Nat) :
    (advanceTo T
        (dispatchAll (createSearchHandler delay) (earlier ++ [last])
          (World.initial ε))).calls =
      (if last.1 + delay ≤ T then [(last.1 + delay, last.2)] else []) ∧
    (advanceTo T
        (dispatchAll (debounce delay) (earlier ++ [last]) (World.initial ε))).calls =
      (if last.1 + delay ≤ T then [(last.1 + delay, last.2)] else []) := by
  rw [createSearchHandler_eq_rearm, debounce_eq_rearm]
  exact ⟨advanceTo_armed_calls (burst_armed .callbackOf delay earlier last h) T,
    advanceTo_armed_calls (burst_armed .later delay earlier last h) T⟩

/-- C9 at three invocations, at times 0, 100 and 350, with `delay` 300. -/
theorem C9_debounce_fires_once_witness :
    Rapid 300 ([(0, 'a'), (100, 'b')] ++ [(350, 'c')]) ∧
    (advanceTo 1000
        (dispatchAll (createSearchHandler 300) ([(0, 'a'), (100, 'b')] ++ [(350, 'c')])
          (World.initial Char))).calls = [(650, 'c')] ∧
    (advanceTo 1000
        (dispatchAll (debounce 300) ([(0, 'a'), (100, 'b')] ++ [(350, 'c')])
          (World.initial Char))).calls = [(650, 'c')] := by
  have hr : Rapid 300 ([(0, 'a'), (100, 'b')] ++ [(350, 'c')]) := by
    unfold Rapid
    simp
  have h := C9_debounce_fires_once Char 300 [(0, 'a'), (100, 'b')] (350, 'c') hr 1000
  exact ⟨hr, h.1, h.2⟩

/-- C10: in `createAdvancedSearchHandler`, after an input event has set the
debounce timer, an Enter keypress before the delay calls the callback at once
but does not cancel the pending timer (`clearTimeout()` is called without a
handle): with `delay` 300, an input at time 0 and Enter at time 100, the
callback is called twice, at 100 for Enter and again at 300 for the input. -/
theorem C10_enter_does_not_cancel :
    (advanceTo 1000
        (dispatchAt (createAdvancedSearchHandler 300).keypress 100
          { key := "Enter".toList, value := "ab".toList, defaultPrevented := false }
          (dispatchAt (createAdvancedSearchHandler 300).input 0
            { key := [], value := "ab".toList, defaultPrevented := false }
            (World.initial Event)))).calls =
      [(100, { key := "Enter".toList, value := "ab".toList, defaultPrevented := true }),
        (300, { key := [], value := "ab".toList, defaultPrevented := false })] ∧
    (dispatchAt (createAdvancedSearchHandler 300).keypress 100
        { key := "Enter".toList, value := "ab".toList, defaultPrevented := false }
        (dispatchAt (createAdvancedSearchHandler 300).input 0
          { key := [], value := "ab".toList, defaultPrevented := false }
          (World.initial Event))).pending.length = 1 := by
  decide

end SearchUtils
